import Mathlib

/-!
Verification development for the part-tree / grouping / sync engine of the
ray-optics repository (src/src/rayoptics/elem/parttree.py) and for
FieldSpec.max_field (src/optical/opticalspec.py).

Conventions of the shallow embedding:

* Sequence-model entries (interfaces, gaps) are identified by their position
  in the sequence lists.  Python object identity coincides with position for
  these objects, so `Obj.ifc i` stands for the interface object
  `seq_model.ifcs[i]`, `Obj.gap i` for `seq_model.gaps[i]`, and
  `Obj.profile i` for the profile object attached to interface `i`.
  Elements are identified by their label (`Obj.ele label`), which is
  unchanged for the unchanged-catalog scenarios treated here.

* anytree nodes carry a `name`, a `tag` and an `id` attribute and an ordered
  list of children.  `PNode.rid` is the `id` attribute of the source,
  renamed so that it does not clash with the identity function.  The
  synthetic root node of a PartTree has `id = self` in the source, an object
  that is never a sequence entry or an element; it is modelled as `none`.

* Numeric geometry (transforms, semi-diameters, z direction, refractive
  indices) does not influence grouping decisions, label numbering or tree
  structure; those fields are omitted from the embedding.

* Name inspection happens on `String.data` (a list of characters), because
  the character-level slices of the source (`name[0]`, `name[:1]`, `name[:2]`)
  translate directly to `List.take`, including the slice-size bug of
  `sync_part_tree_on_restore`.
-/

/-- Interaction mode of a surface, per the spec: interact_mode is one of
transmit or reflect. -/
inductive IMode : Type where
  | transmit
  | reflect
  deriving DecidableEq, Repr

/-- Data of one interface of the sequence model that the grouping code
inspects: its interaction mode and whether it is a thin-lens marker
(the `isinstance(s, thinlens.ThinLens)` test of `process_airgap`). -/
structure Ifc where
  imode : IMode
  isThin : Bool
  deriving DecidableEq, Repr

/-- Data of one gap of the sequence model that the grouping code inspects:
whether its medium is air (`g.medium.name().lower() == 'air'`). -/
structure Gap where
  isAir : Bool
  deriving DecidableEq, Repr

/-- The sequence model, as consumed by parttree.py: ordered interfaces,
ordered gaps (gap i follows interface i), and the declared stop surface. -/
structure SeqModel where
  ifcs : List Ifc
  gaps : List Gap
  stop_surface : Option Nat
  deriving DecidableEq, Repr

/-- Identity of an externally owned object a tree node can reference.
Sequence entries are identified positionally, elements by label,
profiles by the interface that owns them. -/
inductive Obj : Type where
  | ifc (i : Nat)
  | gap (i : Nat)
  | ele (label : String)
  | profile (i : Nat)
  deriving DecidableEq, Repr

/-- Modelled from the spec: the element catalog (rayoptics.elem.elements) is
not under src/.  Per the spec, each catalog element exposes a label, an
ordered interface list (whose entries own the profile objects used by the
`p` name resolution), and, for the dummy and thin-lens variants, a single
reference interface (`ref_ifc`, resp. `intrfc`).  Interfaces are given by
their sequence index. -/
structure Ele where
  label : String
  ifc_list : List Nat
  ref_ifc : Option Nat
  intrfc : Option Nat
  deriving DecidableEq, Repr

/-- Lookup in the dict `{e.label: e for e in ele_model.elements}`: a dict
comprehension keeps the last element with a given label. -/
def ele_lookup (elems : List Ele) (nm : String) : Option Ele :=
  elems.reverse.find? (fun e => e.label = nm)

/-- Value of a decimal digit character, if any. -/
def digitVal? (c : Char) : Option Nat :=
  if c = '0' then some 0 else if c = '1' then some 1 else if c = '2' then some 2
  else if c = '3' then some 3 else if c = '4' then some 4 else if c = '5' then some 5
  else if c = '6' then some 6 else if c = '7' then some 7 else if c = '8' then some 8
  else if c = '9' then some 9 else none

/-- Accumulating decimal parser over a character list. -/
def digitsToNat : List Char → Option Nat → Option Nat
  | [], acc => acc
  | c :: cs, acc =>
    match digitVal? c, acc with
    | some d, some a => digitsToNat cs (some (10 * a + d))
    | some d, none => digitsToNat cs (some d)
    | none, _ => none

/-- Decimal parse of a character list; `none` on the empty list or on a
non-digit, mirroring the cases where the int() call of the source raises.
The names handled by the source carry plain digit suffixes. -/
def parseNat (s : List Char) : Option Nat := digitsToNat s none

/-- Check that the first list starts the second list. -/
def listStartsWith : List Char → List Char → Bool
  | [], _ => true
  | _ :: _, [] => false
  | a :: as, b :: bs => a = b && listStartsWith as bs

/-- Check that the first list occurs contiguously inside the second list;
this is the `t in s` substring test of Python on strings. -/
def isInfixChars (pat : List Char) : List Char → Bool
  | [] => listStartsWith pat []
  | b :: bs => listStartsWith pat (b :: bs) || isInfixChars pat bs

/-- Split a character list on the hash character, mirroring
`str.split` of Python (a leading hash yields a leading empty piece). -/
def splitHash : List Char → List (List Char)
  | [] => [[]]
  | c :: cs =>
    if c = '#' then [] :: splitHash cs
    else
      match splitHash cs with
      | [] => [[c]]
      | p :: ps => (c :: p) :: ps

/-- Tag-filter test of `PartTree.parent_node` and `PartTree.nodes_with_tag`:
split the filter string on hash, drop the leading empty piece, and accept a
node tag in which any remaining piece occurs as a substring. -/
def tagFilterMatch (tagstr nodeTag : String) : Bool :=
  ((splitHash tagstr.data).drop 1).any (fun tp => isInfixChars tp nodeTag.data)

/- Rose tree of anytree nodes: a name, a tag, the referenced object
(the `id` attribute of the source, renamed `rid` here), and the ordered
children. -/
mutual
inductive PNode : Type where
  | mk (name tag : String) (rid : Option Obj) (children : PForest)
  deriving DecidableEq, Repr
inductive PForest : Type where
  | nil
  | cons (c : PNode) (cs : PForest)
  deriving DecidableEq, Repr
end

def PNode.name : PNode → String
  | .mk n _ _ _ => n

def PNode.tag : PNode → String
  | .mk _ t _ _ => t

def PNode.rid : PNode → Option Obj
  | .mk _ _ i _ => i

def PNode.children : PNode → PForest
  | .mk _ _ _ cs => cs

def PForest.append : PForest → PForest → PForest
  | .nil, ds => ds
  | .cons c cs, ds => .cons c (PForest.append cs ds)

def PForest.ofList : List PNode → PForest
  | [] => .nil
  | c :: cs => .cons c (PForest.ofList cs)

def PForest.toList : PForest → List PNode
  | .nil => []
  | .cons c cs => c :: PForest.toList cs

/-- Replace the name of a node (`e_node.name = e.label`). -/
def setName (t : PNode) (nm : String) : PNode :=
  match t with
  | .mk _ tg i cs => .mk nm tg i cs

/-- Attach a node as the last child (anytree appends on attach). -/
def appendChild (t : PNode) (c : PNode) : PNode :=
  match t with
  | .mk n tg i cs => .mk n tg i (cs.append (.cons c .nil))

mutual
/-- Number of nodes of the subtree whose id attribute equals `v`. -/
def countN (v : Option Obj) : PNode → Nat
  | .mk _ _ i cs => (if i = v then 1 else 0) + countF v cs
def countF (v : Option Obj) : PForest → Nat
  | .nil => 0
  | .cons c cs => countN v c + countF v cs
end

mutual
/-- Leaves of a subtree in preorder; a childless node is its own only leaf
(the `leaves` attribute of anytree). -/
def leavesN : PNode → List PNode
  | .mk n tg i .nil => [.mk n tg i .nil]
  | .mk _ _ _ (.cons c cs) => leavesF (.cons c cs)
def leavesF : PForest → List PNode
  | .nil => []
  | .cons c cs => leavesN c ++ leavesF cs
end

mutual
/-- Number of leaves of the subtree whose id attribute equals `v`. -/
def leafCountN (v : Option Obj) : PNode → Nat
  | .mk _ _ i .nil => if i = v then 1 else 0
  | .mk _ _ _ (.cons c cs) => leafCountF v (.cons c cs)
def leafCountF (v : Option Obj) : PForest → Nat
  | .nil => 0
  | .cons c cs => leafCountN v c + leafCountF v cs
end

mutual
/-- All id attributes of a subtree, in preorder. -/
def idsN : PNode → List (Option Obj)
  | .mk _ _ i cs => i :: idsF cs
def idsF : PForest → List (Option Obj)
  | .nil => []
  | .cons c cs => idsN c ++ idsF cs
end

mutual
/-- All names of a subtree, in preorder. -/
def namesN : PNode → List String
  | .mk n _ _ cs => n :: namesF cs
def namesF : PForest → List String
  | .nil => []
  | .cons c cs => namesN c ++ namesF cs
end

mutual
/-- First node of the subtree, in preorder, whose id attribute equals `v`;
this is `find_by_attr(root, name='id', value=obj)` of anytree. -/
def findIdN (v : Option Obj) : PNode → Option PNode
  | .mk n tg i cs => if i = v then some (.mk n tg i cs) else findIdF v cs
def findIdF (v : Option Obj) : PForest → Option PNode
  | .nil => none
  | .cons c cs =>
    match findIdN v c with
    | some r => some r
    | none => findIdF v cs
end

mutual
/-- First node of the subtree, in preorder, with the given name;
this is `find_by_attr(root, name='name', value=nm)` of anytree. -/
def findNameN (nm : String) : PNode → Option PNode
  | .mk n tg i cs => if n = nm then some (.mk n tg i cs) else findNameF nm cs
def findNameF (nm : String) : PForest → Option PNode
  | .nil => none
  | .cons c cs =>
    match findNameN nm c with
    | some r => some r
    | none => findNameF nm cs
end

mutual
/-- Chain of proper ancestors of the first preorder node whose id attribute
equals `v`, innermost ancestor first; `none` when no node matches.  This is
the parent chain walked by `PartTree.parent_node`. -/
def chainN (v : Option Obj) : PNode → Option (List PNode)
  | .mk n tg i cs =>
    if i = v then some []
    else (chainF v cs).map (fun l => l ++ [.mk n tg i cs])
def chainF (v : Option Obj) : PForest → Option (List PNode)
  | .nil => none
  | .cons c cs =>
    match chainN v c with
    | some l => some l
    | none => chainF v cs
end

mutual
/-- Remove from a forest the first preorder node (with its whole subtree)
whose id attribute equals `v`; `none` when no node matches. -/
def remF (v : Option Obj) : PForest → Option PForest
  | .nil => none
  | .cons c cs =>
    if c.rid = v then some cs
    else
      match remN v c with
      | some c2 => some (.cons c2 cs)
      | none => (remF v cs).map (fun cs2 => .cons c cs2)
/-- Remove the first preorder proper descendant of a node whose id attribute
equals `v`; `none` when no proper descendant matches. -/
def remN (v : Option Obj) : PNode → Option PNode
  | .mk n tg i cs => (remF v cs).map (fun cs2 => .mk n tg i cs2)
end

/-- Detach the first preorder node whose id attribute equals `v`
(`dup_node.parent = None`).  When the match is the tree root itself,
detaching is a no-op, since the root has no parent; when nothing matches,
the tree is unchanged. -/
def removeFirst (v : Option Obj) (t : PNode) : PNode :=
  if t.rid = v then t
  else
    match remN v t with
    | some t2 => t2
    | none => t

mutual
/-- Extract from a forest the first preorder node whose id attribute equals
`v`, returning the forest without it and the extracted subtree. -/
def extractF (v : Option Obj) : PForest → Option (PForest × PNode)
  | .nil => none
  | .cons c cs =>
    if c.rid = v then some (cs, c)
    else
      match extractN v c with
      | some (c2, sub) => some (.cons c2 cs, sub)
      | none => (extractF v cs).map (fun r => (PForest.cons c r.1, r.2))
/-- Extract the first preorder proper descendant of a node whose id
attribute equals `v`. -/
def extractN (v : Option Obj) : PNode → Option (PNode × PNode)
  | .mk n tg i cs => (extractF v cs).map (fun r => (PNode.mk n tg i r.1, r.2))
end

mutual
/-- Insert `sub` as last child of the first preorder node with the given
name; `none` when no node has that name. -/
def insertUnderNameN (nm : String) (sub : PNode) : PNode → Option PNode
  | .mk n tg i cs =>
    if n = nm then some (.mk n tg i (cs.append (.cons sub .nil)))
    else (insertUnderNameF nm sub cs).map (fun cs2 => .mk n tg i cs2)
def insertUnderNameF (nm : String) (sub : PNode) : PForest → Option PForest
  | .nil => none
  | .cons c cs =>
    match insertUnderNameN nm sub c with
    | some c2 => some (.cons c2 cs)
    | none => (insertUnderNameF nm sub cs).map (fun cs2 => PForest.cons c cs2)
end

/-- Apply a function to the last child of a node, when it has one. -/
def withLastChild (t : PNode) (f : PNode → PNode) : PNode :=
  match t with
  | .mk n tg i cs =>
    match (cs.toList).getLast? with
    | none => t
    | some lastc => .mk n tg i (PForest.ofList (cs.toList.dropLast ++ [f lastc]))

/-- Move the first preorder node whose id attribute equals `v` (with its
subtree) to become the last child of the last child of the root — the
element node most recently attached by `add_element_to_tree`.  When no node
matches, the tree is unchanged (the source guards the gap moves with
`if g_node:`; for well-formed sequences the unguarded moves always find
their node).  When the match is the root itself the move is skipped, since
the root cannot be reparented. -/
def move_to_last_child (tree : PNode) (v : Option Obj) : PNode :=
  if tree.rid = v then tree
  else
    match extractN v tree with
    | none => tree
    | some (tree2, sub) => withLastChild tree2 (fun e => appendChild e sub)

/-- Move the first preorder node whose id attribute equals `v` under the
first node named `nm` inside the last child of the root (the profile slot
located with `find_by_attr(e_node, name='name', value=pid)`). -/
def move_under_named_in_last_child (tree : PNode) (v : Option Obj) (nm : String) : PNode :=
  if tree.rid = v then tree
  else
    match extractN v tree with
    | none => tree
    | some (tree2, sub) =>
      withLastChild tree2 (fun e => (insertUnderNameN nm sub e).getD e)

/-- The method `PartTree.node`: identity lookup of the node referencing an
object, over the whole tree. -/
def part_tree_node (t : PNode) (obj : Obj) : Option PNode :=
  findIdN (some obj) t

/-- The method `PartTree.parent_node`: find the node of `obj`, then walk up
through its ancestors and return the first one whose tag matches the
filter; `none` when `obj` is unknown or no ancestor matches. -/
def parent_node (t : PNode) (obj : Obj) (tagstr : String) : Option PNode :=
  match chainN (some obj) t with
  | none => none
  | some anc => anc.find? (fun a => tagFilterMatch tagstr a.tag)

/-- The method `PartTree.parent_object`: the id attribute of the matching
ancestor; `None` both when there is no ancestor and when the ancestor
carries no object. -/
def parent_object (t : PNode) (obj : Obj) (tagstr : String) : Option Obj :=
  match parent_node t obj tagstr with
  | none => none
  | some p => p.rid

/-- The method `PartTree.add_element_to_tree`: rename the fragment to the
element label, detach any node of the tree that references the same object
as one of the fragment leaves, then attach the fragment under the root. -/
def add_element_to_tree (tree : PNode) (frag : PNode) (label : String) : PNode :=
  let e_node := setName frag label
  let ls := leavesN e_node
  let tree2 := ls.foldl (fun r lf => removeFirst lf.rid r) tree
  appendChild tree2 e_node

/-- Leaf node for interface `i`: name i followed by the index, tag hash-ifc,
referencing the interface object. -/
def ifcLeaf (i : Nat) : PNode :=
  .mk ("i" ++ toString i) "#ifc" (some (.ifc i)) .nil

/-- Leaf node for gap `i`: name g followed by the index, tag hash-gap,
referencing the gap object. -/
def gapLeaf (i : Nat) : PNode :=
  .mk ("g" ++ toString i) "#gap" (some (.gap i)) .nil

/-- The method `PartTree.init_from_sequence`: one interface node and one gap
node per interior surface (`ifcs[1:-1]`, enumerated from 1), appended under
the root in sequence order.  The source reads `seq_model.gaps[i]` and would
raise when that index is out of range; the embedding returns `none` for the
whole call in that case. -/
def init_from_sequence (seq : SeqModel) (root : PNode) : Option PNode :=
  match (List.range (seq.ifcs.length - 2)).foldlM
      (fun (acc : List PNode) k =>
        if k + 1 < seq.gaps.length then some (acc ++ [ifcLeaf (k + 1), gapLeaf (k + 1)])
        else none) ([] : List PNode) with
  | none => none
  | some cs =>
    some (match root with
          | .mk n tg i cs0 => .mk n tg i (cs0.append (PForest.ofList cs)))

mutual
/-- Strip the id attributes of a subtree: the serialized form keeps exactly
the name and tag of every node (`__json_encode__` exports name and tag;
`DictImporter` rebuilds the same shape from them). -/
def stripN : PNode → PNode
  | .mk n tg _ cs => .mk n tg none (stripF cs)
def stripF : PForest → PForest
  | .nil => .nil
  | .cons c cs => .cons (stripN c) (stripF cs)
end

/-- Resolution of one node during `sync_part_tree_on_restore`: dispatch on
the node name exactly as the source does.  `pname` is the name of the parent
node (`none` for the root, whose missing parent would make the source raise
in the branches that read `node.parent.name`).  The outer `Option` is a
raised exception; the inner `Option Obj` is the id attribute, left unchanged
(for a freshly imported node: absent, `none`) when no branch matches.
The two dead branches compare a one-character slice with a two-character
string, exactly as the source lines `name[:1] == 'di'` and
`name[:1] == 'tl'` do. -/
def restore_id (ed : List Ele) (seq : SeqModel) (pname : Option String)
    (name : String) (old : Option Obj) : Option (Option Obj) :=
  match ele_lookup ed name with
  | some e => some (some (Obj.ele e.label))
  | none =>
    match name.data.head? with
    | none => none
    | some _ =>
      if name.data.take 1 = ['i'] then
        match parseNat (name.data.drop 1) with
        | none => none
        | some idx => if idx < seq.ifcs.length then some (some (Obj.ifc idx)) else none
      else if name.data.take 1 = ['g'] then
        match parseNat (name.data.drop 1) with
        | none => none
        | some idx => if idx < seq.gaps.length then some (some (Obj.gap idx)) else none
      else if name.data.take 1 = ['p'] then
        match pname with
        | none => none
        | some pn =>
          match ele_lookup ed pn with
          | none => none
          | some e =>
            match parseNat (name.data.drop 1) with
            | none => none
            | some k =>
              match (if k = 0 then e.ifc_list.getLast? else e.ifc_list[k - 1]?) with
              | none => none
              | some r => some (some (Obj.profile r))
      else if name.data.take 1 = ['d', 'i'] then
        match pname with
        | none => none
        | some pn =>
          match ele_lookup ed pn with
          | none => none
          | some e =>
            match e.ref_ifc with
            | none => none
            | some r => some (some (Obj.ifc r))
      else if name.data.take 1 = ['t', 'l'] then
        match pname with
        | none => none
        | some pn =>
          match ele_lookup ed pn with
          | none => none
          | some e =>
            match e.intrfc with
            | none => none
            | some r => some (some (Obj.ifc r))
      else some old

mutual
/-- Preorder restore pass over a subtree; the children of a node see the
(unchanged) name of their parent. -/
def restoreN (ed : List Ele) (seq : SeqModel) (pname : Option String) :
    PNode → Option PNode
  | .mk n tg i cs =>
    match restore_id ed seq pname n i with
    | none => none
    | some i2 =>
      match restoreF ed seq (some n) cs with
      | none => none
      | some cs2 => some (.mk n tg i2 cs2)
def restoreF (ed : List Ele) (seq : SeqModel) (pname : Option String) :
    PForest → Option PForest
  | .nil => some .nil
  | .cons c cs =>
    match restoreN ed seq pname c, restoreF ed seq pname cs with
    | some c2, some cs2 => some (.cons c2 cs2)
    | _, _ => none
end

/-- The function `sync_part_tree_on_restore`: re-resolve the id attribute of
every node of a deserialized tree from its name, against the current
element list and sequence model. -/
def sync_part_tree_on_restore (ed : List Ele) (seq : SeqModel) (root : PNode) :
    Option PNode :=
  restoreN ed seq none root

/-- Position of an object in `seq_model.ifcs` (`list.index`); with
positional identity, the interface object `i` sits at index `i` when in
range, and any other object raises. -/
def index_ifcs (seq : SeqModel) (old : Option Obj) : Option Nat :=
  match old with
  | some (Obj.ifc j) => if j < seq.ifcs.length then some j else none
  | _ => none

/-- Position of an object in `seq_model.gaps`. -/
def index_gaps (seq : SeqModel) (old : Option Obj) : Option Nat :=
  match old with
  | some (Obj.gap j) => if j < seq.gaps.length then some j else none
  | _ => none

/-- Renaming and re-resolution of one node during
`sync_part_tree_on_update`: returns the new name and the new id attribute.
Unlike the restore pass, the label dictionary is not consulted first; the
fallthrough branch renames any node whose object has a label. -/
def update_data (ed : List Ele) (seq : SeqModel) (pname : Option String)
    (name : String) (old : Option Obj) : Option (String × Option Obj) :=
  match name.data.head? with
  | none => none
  | some _ =>
    if name.data.take 1 = ['i'] then
      match index_ifcs seq old with
      | none => none
      | some idx => some ("i" ++ toString idx, old)
    else if name.data.take 1 = ['g'] then
      match index_gaps seq old with
      | none => none
      | some idx => some ("g" ++ toString idx, old)
    else if name.data.take 1 = ['p'] then
      match pname with
      | none => none
      | some pn =>
        match ele_lookup ed pn with
        | none => none
        | some e =>
          if name.data.length > 1 then
            match parseNat (name.data.drop 1) with
            | none => none
            | some k =>
              match (if k = 0 then e.ifc_list.getLast? else e.ifc_list[k - 1]?) with
              | none => none
              | some r => some (name, some (Obj.profile r))
          else
            match e.ifc_list[0]? with
            | none => none
            | some r => some (name, some (Obj.profile r))
    else if name.data.take 2 = ['d', 'i'] then
      match pname with
      | none => none
      | some pn =>
        match ele_lookup ed pn with
        | none => none
        | some e =>
          match e.ref_ifc with
          | none => none
          | some r =>
            if r < seq.ifcs.length then some ("di" ++ toString r, some (Obj.ifc r))
            else none
    else if name.data.take 2 = ['t', 'l'] then
      match pname with
      | none => none
      | some pn =>
        match ele_lookup ed pn with
        | none => none
        | some e =>
          match e.intrfc with
          | none => none
          | some r =>
            if r < seq.ifcs.length then some ("tl" ++ toString r, some (Obj.ifc r))
            else none
    else
      match old with
      | some (Obj.ele l) => some (l, old)
      | _ => some (name, old)

mutual
/-- Preorder update pass over a subtree; a parent is renamed before its
children are visited, so the children see the new parent name. -/
def updateN (ed : List Ele) (seq : SeqModel) (pname : Option String) :
    PNode → Option PNode
  | .mk n tg i cs =>
    match update_data ed seq pname n i with
    | none => none
    | some (n2, i2) =>
      match updateF ed seq (some n2) cs with
      | none => none
      | some cs2 => some (.mk n2 tg i2 cs2)
def updateF (ed : List Ele) (seq : SeqModel) (pname : Option String) :
    PForest → Option PForest
  | .nil => some .nil
  | .cons c cs =>
    match updateN ed seq pname c, updateF ed seq pname cs with
    | some c2, some cs2 => some (.cons c2 cs2)
    | _, _ => none
end

/-- The function `sync_part_tree_on_update`: recompute every node name from
the current position or label of its referenced object. -/
def sync_part_tree_on_update (ed : List Ele) (seq : SeqModel) (root : PNode) :
    Option PNode :=
  updateN ed seq none root

/-- Parts emitted by the grouping engine.  The first field of the numbered
variants is the number placed into the label by
`label_format.format(...)`; the remaining fields are the sequence indices
of the constituents.  `cemented` keeps the accumulated
`(index, interface, gap)` triples handed to the constructor. -/
inductive EPart : Type where
  | lens (num i1 i2 g : Nat)
  | cemented (num : Nat) (segs : List (Nat × Nat × Nat))
  | mirror (num i : Nat)
  | thin (num i : Nat)
  | dummyObj (i : Nat)
  | dummyStop (i : Nat)
  | dummyPlain (num i : Nat)
  | airgap (num g : Nat)
  deriving DecidableEq, Repr

/-- Modelled from the spec: the per-variant label templates live in the
element catalog (rayoptics.elem.elements), which is not under src/; the
spec fixes only that every variant owns a format template and that the
dummy used for the object plane is labelled Object and the one at the stop
is labelled Stop.  Concrete template letters are chosen here. -/
def labelOf : EPart → String
  | .lens n _ _ _ => "E" ++ toString n
  | .cemented n _ => "CE" ++ toString n
  | .mirror n _ => "M" ++ toString n
  | .thin n _ => "TE" ++ toString n
  | .dummyObj _ => "Object"
  | .dummyStop _ => "Stop"
  | .dummyPlain n _ => "D" ++ toString n
  | .airgap n _ => "AG" ++ toString n

/-- Profile slot node of a multi-surface element: the numbered profile
child `p<k>` referencing the profile of interface `i`, with the interface
leaf below it. -/
def profileNode (k i : Nat) : PNode :=
  .mk ("p" ++ toString k) "#profile" (some (.profile i)) (.cons (ifcLeaf i) .nil)

/-- Modelled from the spec: the canonical subtree fragment produced by
`e.tree(tag=...)` of each catalog variant — leaf children referencing
exactly the raw interfaces and gaps the element subsumes, profile slots
named `p1..pN`, and a single `di`, resp. `tl`, child for the dummy and
thin-lens variants; the extra tag is appended to the default variant tag. -/
def partFragment (p : EPart) (tagExtra : String) : PNode :=
  match p with
  | .lens _ i1 i2 g =>
    .mk (labelOf p) ("#element#lens" ++ tagExtra) (some (.ele (labelOf p)))
      (.cons (profileNode 1 i1) (.cons (profileNode 2 i2) (.cons (gapLeaf g) .nil)))
  | .cemented _ segs =>
    .mk (labelOf p) ("#element#cemented" ++ tagExtra) (some (.ele (labelOf p)))
      (PForest.ofList
        ((segs.enum.map (fun pr => profileNode (pr.1 + 1) pr.2.2.1)) ++
         (segs.dropLast.map (fun s => gapLeaf s.2.2))))
  | .mirror _ i =>
    .mk (labelOf p) ("#element#mirror" ++ tagExtra) (some (.ele (labelOf p)))
      (.cons (ifcLeaf i) .nil)
  | .thin _ i =>
    .mk (labelOf p) ("#element#thinlens" ++ tagExtra) (some (.ele (labelOf p)))
      (.cons (.mk ("tl" ++ toString i) "#ifc" (some (.ifc i)) .nil) .nil)
  | .dummyObj i =>
    .mk (labelOf p) ("#element#dummyifc" ++ tagExtra) (some (.ele (labelOf p)))
      (.cons (.mk ("di" ++ toString i) "#ifc" (some (.ifc i)) .nil) .nil)
  | .dummyStop i =>
    .mk (labelOf p) ("#element#dummyifc" ++ tagExtra) (some (.ele (labelOf p)))
      (.cons (.mk ("di" ++ toString i) "#ifc" (some (.ifc i)) .nil) .nil)
  | .dummyPlain _ i =>
    .mk (labelOf p) ("#element#dummyifc" ++ tagExtra) (some (.ele (labelOf p)))
      (.cons (.mk ("di" ++ toString i) "#ifc" (some (.ifc i)) .nil) .nil)
  | .airgap _ g =>
    .mk (labelOf p) ("#airgap" ++ tagExtra) (some (.ele (labelOf p)))
      (.cons (gapLeaf g) .nil)

/-- Emit a part: build its fragment and attach it with
`add_element_to_tree` under its label. -/
def addPart (tree : PNode) (p : EPart) (tagExtra : String) : PNode :=
  add_element_to_tree tree (partFragment p tagExtra) (labelOf p)

/-- The function `process_airgap`: classify a surface bounded by air on
both sides (bare mirror, thin-lens marker, or dummy plane), then emit an
AirGap for the following gap.  `i` is the loop index, `g` the index of the
following gap, `s` the index of the surface; the callers pass the same
index for all three.  Returns the new tree, the emitted parts in order,
and the updated element counter.  The source reads `seq_model.gaps[i-1]`
only for `i > 0`; an out-of-range read there would raise, which does not
arise from the caller, and is modelled as emitting no dummy. -/
def process_airgap (seq : SeqModel) (tree : PNode) (i g s : Nat)
    (num_ele : Nat) (add_ele : Bool) : PNode × List EPart × Nat :=
  match seq.ifcs[s]? with
  | none => (tree, [], num_ele)
  | some sfc =>
    let r1 : PNode × List EPart × Nat :=
      if sfc.imode = IMode.reflect ∧ add_ele = true then
        let m := EPart.mirror (num_ele + 1) s
        (addPart tree m "", [m], num_ele + 1)
      else if sfc.isThin = true ∧ add_ele = true then
        let te := EPart.thin (num_ele + 1) s
        (addPart tree te "", [te], num_ele + 1)
      else if sfc.imode = IMode.transmit then
        let dec : Option (EPart × String) :=
          if i = 0 then some (EPart.dummyObj i, "#object")
          else
            match seq.gaps[i - 1]? with
            | none => none
            | some gp =>
              if gp.isAir = true then
                if seq.stop_surface = some i then some (EPart.dummyStop i, "#stop")
                else some (EPart.dummyPlain i i, "")
              else none
        match dec with
        | some (di, tg) => (addPart tree di tg, [di], num_ele)
        | none => (tree, [], num_ele)
      else (tree, [], num_ele)
    let ag := EPart.airgap i g
    (addPart r1.1 ag "", r1.2.1 ++ [ag], r1.2.2)

/-- State threaded through the main loop of `elements_from_sequence`:
the shared element counter, the pending accumulator `eles` (kept as
`(index, interface index, gap index)` triples; the transform entry of the
source tuples is geometric data and is omitted), the buried-reflector
flag, the part tree, and the emitted parts in order. -/
structure EfsState where
  num_elements : Nat
  eles : List (Nat × Nat × Nat)
  buried_reflector : Bool
  tree : PNode
  parts : List EPart
  deriving Repr

/-- Closing of a pending non-air run at an air boundary, the nonempty
`eles` case of the main loop of `elements_from_sequence`: emit a Lens for a
single pending surface, a CementedElement for several, or nothing when the
buried-reflector halving empties the run, apply the buried-reflector
re-threading of tree nodes, then emit the AirGap for the closing gap and
reset the accumulator.  `e0 :: tl` is the pending accumulator. -/
def efs_close_run (i : Nat) (e0 : Nat × Nat × Nat) (tl : List (Nat × Nat × Nat))
    (ne : Nat) (br : Bool) (tr : PNode) (ps : List EPart) : EfsState :=
  let num_eles0 := (e0 :: tl).length
  let num_eles := if br then num_eles0 / 2 else num_eles0
  let eles2 := if br then (e0 :: tl) ++ [(i, i, i)] else (e0 :: tl)
  let cur : Nat × Nat × Nat := if br then tl.getD 0 (i, i, i) else (i, i, i)
  if num_eles = 1 then
    let e := EPart.lens (ne + 1) e0.2.1 cur.2.1 e0.2.2
    let tree2 := addPart tr e ""
    let tree3 :=
      if br then
        let last := eles2.getLastD (i, i, i)
        let ta := move_under_named_in_last_child tree2 (some (.ifc last.2.1)) "p1"
        let tb := move_to_last_child ta (some (.gap cur.2.2))
        move_to_last_child tb (some (.gap e0.2.2))
      else tree2
    let curA := if br then eles2.getLastD (i, i, i) else cur
    let ag := EPart.airgap curA.1 curA.2.2
    let tree4 := addPart tree3 ag ""
    { num_elements := ne + 1, eles := [], buried_reflector := false,
      tree := tree4, parts := ps ++ [e, ag] }
  else if 1 < num_eles then
    let eles3 := if br then eles2 else eles2 ++ [(i, i, i)]
    let e := EPart.cemented (ne + 1) (eles3.take (num_eles + 1))
    let tree2 := addPart tr e ""
    let tree3 :=
      if br then
        (List.range num_eles).foldl
          (fun t k =>
            let kk := k + 1
            let j := eles3.length - kk
            let ifcK := (eles3.getD j (0, 0, 0)).2.1
            let t1 := move_under_named_in_last_child t (some (.ifc ifcK))
                        ("p" ++ toString kk)
            let gK := (eles3.getD (j - 1) (0, 0, 0)).2.2
            move_to_last_child t1 (some (.gap gK)))
          tree2
      else tree2
    let curA := eles3.getLastD (i, i, i)
    let ag := EPart.airgap curA.1 curA.2.2
    let tree4 := addPart tree3 ag ""
    { num_elements := ne + 1, eles := [], buried_reflector := false,
      tree := tree4, parts := ps ++ [e, ag] }
  else
    let ag := EPart.airgap cur.1 cur.2.2
    let tree2 := addPart tr ag ""
    { num_elements := ne, eles := [], buried_reflector := false,
      tree := tree2, parts := ps ++ [ag] }

/-- One iteration of the main loop of `elements_from_sequence` at surface
`i`.  The path entry carries the gap following surface `i` when there is
one; `g is None` at the final surface. -/
def efs_step (seq : SeqModel) (st : EfsState) (i : Nat) : EfsState :=
  match seq.ifcs[i]?, seq.gaps[i]? with
  | some ifc, some gd =>
    if gd.isAir = true then
      match st.eles with
      | [] =>
        if 0 < i then
          let r := process_airgap seq st.tree i i i st.num_elements true
          { st with tree := r.1, parts := st.parts ++ r.2.1, num_elements := r.2.2 }
        else st
      | e0 :: tl =>
        efs_close_run i e0 tl st.num_elements st.buried_reflector st.tree st.parts
    else
      { st with
        buried_reflector := if ifc.imode = IMode.reflect then true else st.buried_reflector,
        eles := st.eles ++ [(i, i, i)] }
  | some _, none => st
  | none, _ => st

/-- Emptiness test of the root children (`len(part_tree.root_node.children) == 0`). -/
def forestIsEmpty : PForest → Bool
  | .nil => true
  | .cons _ _ => false

/-- The function `elements_from_sequence`: initialize the tree from the
sequence when it has no children, then run the single forward pass over
the path, one iteration per surface.  Returns the final tree, the list of
emitted parts in order, and the final element counter. -/
def elements_from_sequence (seq : SeqModel) (part_tree : PNode) :
    Option (PNode × List EPart × Nat) :=
  match (if forestIsEmpty part_tree.children then init_from_sequence seq part_tree
         else some part_tree) with
  | none => none
  | some t0 =>
    let st := (List.range seq.ifcs.length).foldl (efs_step seq)
      { num_elements := 0, eles := [], buried_reflector := false, tree := t0, parts := [] }
    some (st.tree, st.parts, st.num_elements)

/-- Emitted parts of a grouping run, without the tree. -/
def efs_parts (seq : SeqModel) (t : PNode) : Option (List EPart) :=
  (elements_from_sequence seq t).map (fun r => r.2.1)

/-- Test for the dummy variants. -/
def isDummyPart : EPart → Bool
  | .dummyObj _ => true
  | .dummyStop _ => true
  | .dummyPlain _ _ => true
  | _ => false

/-- Test for the physical element variants, which share one label counter. -/
def isPhysPart : EPart → Bool
  | .lens _ _ _ _ => true
  | .cemented _ _ => true
  | .mirror _ _ => true
  | .thin _ _ => true
  | _ => false

/-- Test for the AirGap variant. -/
def isAirgapPart : EPart → Bool
  | .airgap _ _ => true
  | _ => false

/-- Dummy parts of a part list, in order. -/
def dummyParts (ps : List EPart) : List EPart := ps.filter isDummyPart

/-- AirGap parts of a part list, in order. -/
def airgapParts (ps : List EPart) : List EPart := ps.filter isAirgapPart

/-- Physical element parts of a part list, in order. -/
def physParts (ps : List EPart) : List EPart := ps.filter isPhysPart

/-- Label number of a part. -/
def partNum : EPart → Nat
  | .lens n _ _ _ => n
  | .cemented n _ => n
  | .mirror n _ => n
  | .thin n _ => n
  | .dummyObj i => i
  | .dummyStop i => i
  | .dummyPlain n _ => n
  | .airgap n _ => n

/-- Label numbers of the physical element parts, in emission order. -/
def physNums (ps : List EPart) : List Nat := (physParts ps).map partNum

/-- One field point of a FieldSpec; only the x and y coordinates enter
`max_field`.  Rational coordinates model the real-valued data. -/
structure FieldPt where
  x : Rat
  y : Rat
  deriving DecidableEq, Repr

/-- The squared field height `f.x*f.x + f.y*f.y` of the loop body. -/
def fld_sqrd (f : FieldPt) : Rat := f.x * f.x + f.y * f.y

/-- The loop of `FieldSpec.max_field`: starting from `(0.0, None)`, keep
the strictly largest squared height and the index where it was found. -/
def mf_step (acc : Rat × Option Nat) (pr : Nat × FieldPt) : Rat × Option Nat :=
  if fld_sqrd pr.2 > acc.1 then (fld_sqrd pr.2, some pr.1) else acc

def max_field_aux (fs : List FieldPt) : Rat × Option Nat :=
  fs.enum.foldl mf_step (0, none)

/-- The method `FieldSpec.max_field`: the square root of the maximal
squared field height, together with the index attaining it. -/
noncomputable def max_field (fs : List FieldPt) : Real × Option Nat :=
  (Real.sqrt ((max_field_aux fs).1 : Real), (max_field_aux fs).2)

/-- Maximum of the squared field heights, starting from the 0.0 the
accumulator is initialized with. -/
def maxSqrd (fs : List FieldPt) : Rat := (fs.map fld_sqrd).foldr max 0

/-- Empty part tree root: name root, tag hash-group-root, with the self
reference of the source modelled as none. -/
def root0 : PNode := .mk "root" "#group#root" none .nil

/-- Grouping scenario 1 of the spec: object dummy, air, surface A
(transmit), glass, surface B (transmit), air, image dummy. -/
def seqA : SeqModel :=
  { ifcs := [⟨IMode.transmit, false⟩, ⟨IMode.transmit, false⟩,
             ⟨IMode.transmit, false⟩, ⟨IMode.transmit, false⟩],
    gaps := [⟨true⟩, ⟨false⟩, ⟨true⟩],
    stop_surface := none }

/-- Two singlet lenses in a row: object dummy, air, lens 1 (surfaces 1 and
2 around glass), air, lens 2 (surfaces 3 and 4 around glass), air, image
dummy. -/
def seqB : SeqModel :=
  { ifcs := [⟨IMode.transmit, false⟩, ⟨IMode.transmit, false⟩,
             ⟨IMode.transmit, false⟩, ⟨IMode.transmit, false⟩,
             ⟨IMode.transmit, false⟩, ⟨IMode.transmit, false⟩],
    gaps := [⟨true⟩, ⟨false⟩, ⟨true⟩, ⟨false⟩, ⟨true⟩],
    stop_surface := none }

/-- Interior nodes created by `init_from_sequence` for a sequence of `n`
surfaces: one interface node and one gap node per surface index 1..n-2. -/
def interior_nodes (n : Nat) : List PNode :=
  (List.range (n - 2)).flatMap (fun k => [ifcLeaf (k + 1), gapLeaf (k + 1)])

/-- Air test of the gap preceding surface `i`, the
`seq_model.gaps[i-1]` read of `process_airgap`; false when the read is out
of range. -/
def prevGapAir (seq : SeqModel) (i : Nat) : Bool :=
  match seq.gaps[i - 1]? with
  | some gp => gp.isAir
  | none => false

/-- Well-formedness of an element label with respect to the name-dispatch
of `sync_part_tree_on_update`: nonempty and not beginning with one of the
reserved interface, gap, profile, dummy or thin-lens name forms.  The
label templates of the catalog (capitalized variant letters, Object, Stop)
satisfy this. -/
def okLabelB (l : String) : Bool :=
  !(l.data.isEmpty) && !(l.data.take 1 == ['i']) && !(l.data.take 1 == ['g']) &&
  !(l.data.take 1 == ['p']) && !(l.data.take 2 == ['d', 'i']) &&
  !(l.data.take 2 == ['t', 'l'])

/-- Well-formedness of one id attribute: element references carry a
well-formed label. -/
def okRid : Option Obj → Bool
  | some (Obj.ele l) => okLabelB l
  | _ => true

mutual
/-- Every element reference of the subtree carries a well-formed label. -/
def okEleN : PNode → Bool
  | .mk _ _ i cs => okRid i && okEleF cs
def okEleF : PForest → Bool
  | .nil => true
  | .cons c cs => okEleN c && okEleF cs
end

/-- Objects referenced by the nodes of a subtree, in preorder. -/
def someIdsN (t : PNode) : List Obj := (idsN t).filterMap (fun o => o)

/-- Objects referenced by the leaves of a subtree, in preorder. -/
def someLeafIdsN (t : PNode) : List Obj :=
  ((leavesN t).map PNode.rid).filterMap (fun o => o)

/-- Invariant of the main loop of `elements_from_sequence` that carries the
label-numbering facts: the shared counter equals the number of physical
parts emitted so far, those parts are numbered 1,2,... in emission order,
every AirGap part is numbered by its gap index, every plain DummyInterface
part by its surface index, and the pending accumulator holds triples
`(i, i, i)`. -/
def EfsInv (st : EfsState) : Prop :=
  st.num_elements = (physParts st.parts).length ∧
  physNums st.parts = List.range' 1 (physParts st.parts).length ∧
  (∀ p ∈ st.parts, ∀ a g, p = EPart.airgap a g → a = g) ∧
  (∀ p ∈ st.parts, ∀ a j, p = EPart.dummyPlain a j → a = j) ∧
  (∀ s ∈ st.eles, s.2.1 = s.1 ∧ s.2.2 = s.1)

/-- Part tree of the round-trip scenario: the root, a dummy element node
labelled D3 with its `di` reference-interface child, and a loose interface
node. -/
def treeC2 : PNode :=
  .mk "root" "#group#root" none
    (PForest.ofList
      [.mk "D3" "#element#dummyifc" (some (.ele "D3"))
        (.cons (.mk "di3" "#ifc" (some (.ifc 3)) .nil) .nil),
       ifcLeaf 1])

/-- Element list of the round-trip scenario. -/
def edC2 : List Ele := [⟨"D3", [3], some 3, none⟩]

/-- Part tree of the restore-dispatch scenario: a dummy element with a
`di` child and a thin element with a `tl` child. -/
def treeC3 : PNode :=
  .mk "root" "#group#root" none
    (PForest.ofList
      [.mk "D2" "#element#dummyifc" (some (.ele "D2"))
        (.cons (.mk "di2" "#ifc" (some (.ifc 2)) .nil) .nil),
       .mk "TE1" "#element#thinlens" (some (.ele "TE1"))
        (.cons (.mk "tl4" "#ifc" (some (.ifc 4)) .nil) .nil)])

/-- Element list of the restore-dispatch scenario. -/
def edC3 : List Ele := [⟨"D2", [2], some 2, none⟩, ⟨"TE1", [4], none, some 4⟩]

/-- Sequence with a declared stop surface at index 2, bounded by air. -/
def seqC8 : SeqModel :=
  { ifcs := [⟨IMode.transmit, false⟩, ⟨IMode.transmit, false⟩,
             ⟨IMode.transmit, false⟩, ⟨IMode.transmit, false⟩],
    gaps := [⟨true⟩, ⟨true⟩, ⟨true⟩],
    stop_surface := some 2 }

/-- Tree with two loose raw leaves, used to exercise `add_element_to_tree`. -/
def rootW : PNode :=
  .mk "root" "#group#root" none (PForest.ofList [ifcLeaf 1, gapLeaf 1])

/-- Part tree exercising both passes of `sync_part_tree_on_update`; the
node names are stale (from before an edit of the sequence), and the first
pass recomputes them from the referenced objects. -/
def treeC6 : PNode :=
  .mk "root" "#group#root" none
    (PForest.ofList
      [.mk "i3" "#ifc" (some (.ifc 1)) .nil,
       .mk "g2" "#gap" (some (.gap 1)) .nil,
       .mk "D2" "#element#dummyifc" (some (.ele "D2"))
        (.cons (.mk "di9" "#ifc" none .nil) .nil)])

/-- Element list for the update-idempotence scenario. -/
def edC6 : List Ele := [⟨"D2", [2], some 2, none⟩]

/-- Helper for C5: the accumulator fold of `init_from_sequence` succeeds
and appends the interior node pairs when every needed gap index is in
range. -/
theorem init_fold_aux (seq : SeqModel) :
    ∀ (l : List Nat) (acc : List PNode),
      (∀ k ∈ l, k + 1 < seq.gaps.length) →
      (List.foldlM
        (fun (acc2 : List PNode) k =>
          if k + 1 < seq.gaps.length then some (acc2 ++ [ifcLeaf (k + 1), gapLeaf (k + 1)])
          else none) acc l : Option (List PNode))
        = some (acc ++ l.flatMap (fun k => [ifcLeaf (k + 1), gapLeaf (k + 1)]))
  | [], acc, _ => by simp
  | k :: ks, acc, h => by
    have hk : k + 1 < seq.gaps.length := h k (by simp)
    have ih := init_fold_aux seq ks (acc ++ [ifcLeaf (k + 1), gapLeaf (k + 1)])
      (fun x hx => h x (by simp [hx]))
    simp only [List.foldlM_cons, hk, if_pos, Option.bind_eq_bind, Option.some_bind, ih,
      List.flatMap_cons]
    simp

/-- C5 (amended): `init_from_sequence`, run on a childless root over a
sequence whose gap list is long enough, creates one child `i<idx>` and one
child `g<idx>` per interior surface (indices 1..n-2; the object and image
surfaces and the object-side gap are skipped), directly under the root, in
sequence order. -/
theorem c5_init_from_sequence_interior (seq : SeqModel) (nm tg : String) (r : Option Obj)
    (h : seq.ifcs.length - 1 ≤ seq.gaps.length) :
    init_from_sequence seq (PNode.mk nm tg r .nil) =
      some (PNode.mk nm tg r (PForest.ofList (interior_nodes seq.ifcs.length))) := by
  have haux := init_fold_aux seq (List.range (seq.ifcs.length - 2)) []
    (fun k hk => by
      have := List.mem_range.mp hk
      omega)
  simp only [init_from_sequence, haux, List.nil_append, interior_nodes]
  rfl

/-- C5 (witness): the amended statement evaluated on the two-lens
sequence. -/
theorem c5_witness :
    init_from_sequence seqB (PNode.mk "root" "#group#root" none .nil) =
      some (PNode.mk "root" "#group#root" none (PForest.ofList (interior_nodes 6))) :=
  c5_init_from_sequence_interior seqB "root" "#group#root" none (by decide)

/-- C5 (counterexample): on a sequence of four surfaces and three gaps,
`init_from_sequence` creates children i1, g1, i2, g2 only — no node for
surface 0, surface 3, or gap 0, contrary to one child per surface and per
gap of the claim. -/
theorem c5_counterexample :
    init_from_sequence seqA root0 =
      some (PNode.mk "root" "#group#root" none
        (PForest.ofList [ifcLeaf 1, gapLeaf 1, ifcLeaf 2, gapLeaf 2])) := by
  decide

/-- C1 (counterexample): on the object-air-A-glass-B-air-image sequence the
grouping run emits exactly one Lens part and one AirGap part and no
DummyInterface part, not the one Lens, two AirGaps and two dummies of the
claim: the airgap classifier is guarded by `i > 0`, so the object surface
and the object-side air gap produce nothing, and the image surface has no
following gap. -/
theorem c1_counterexample :
    efs_parts seqA root0 = some [EPart.lens 1 1 2 1, EPart.airgap 2 2] ∧
    dummyParts [EPart.lens 1 1 2 1, EPart.airgap 2 2] = [] ∧
    airgapParts [EPart.lens 1 1 2 1, EPart.airgap 2 2] = [EPart.airgap 2 2] := by
  decide

/-- C1 (amended): for the input sequence object-dummy, air, surface A
(transmit), glass, surface B (transmit), air, image-dummy, one run of
`elements_from_sequence` emits exactly one Lens element spanning A and B
(surfaces 1 and 2 around gap 1) and one AirGap part for the gap following
B, and nothing else; in particular no DummyInterface part is emitted. -/
theorem c1_grouping_scenario :
    efs_parts seqA root0 = some [EPart.lens 1 1 2 1, EPart.airgap 2 2] := by
  decide

/-- C2 (code bug): serializing the round-trip tree (keeping names and tags
only) and restoring it over the unchanged sequence model and element list
preserves the names, and resolves the element and interface nodes, but
leaves the referent of the `di` reference-interface node unresolved: the
restore dispatch compares the one-character slice `name[:1]` with the
two-character string di, which never matches, so the node keeps no id
attribute where the original referenced interface 3. -/
theorem c2_roundtrip_fails :
    (sync_part_tree_on_restore edC2 seqA (stripN treeC2)).map namesN
        = some (namesN treeC2) ∧
    ((sync_part_tree_on_restore edC2 seqA (stripN treeC2)).bind
        (findNameN "di3")).map PNode.rid = some none ∧
    (findNameN "di3" treeC2).map PNode.rid = some (some (Obj.ifc 3)) ∧
    ((sync_part_tree_on_restore edC2 seqA (stripN treeC2)).bind
        (findNameN "i1")).map PNode.rid = some (some (Obj.ifc 1)) := by
  decide

/-- C3 (code bug): during `sync_part_tree_on_restore`, nodes named with the
di and tl forms are never assigned a referent: the original tree references
interface 2 under the dummy element and interface 4 under the thin element,
but after a restore over the same models both nodes carry no referent,
because the source compares `name[:1]` (one character) with di and tl. -/
theorem c3_restore_di_tl_dead :
    ((sync_part_tree_on_restore edC3 seqB (stripN treeC3)).bind
        (findNameN "di2")).map PNode.rid = some none ∧
    ((sync_part_tree_on_restore edC3 seqB (stripN treeC3)).bind
        (findNameN "tl4")).map PNode.rid = some none ∧
    (findNameN "di2" treeC3).map PNode.rid = some (some (Obj.ifc 2)) ∧
    (findNameN "tl4" treeC3).map PNode.rid = some (some (Obj.ifc 4)) := by
  decide

/-- C8: when the airgap classifier handles a transmitting, non-reflecting,
non-thin-lens surface, the emitted DummyInterface part is the
object-tagged one exactly for the very first surface, the stop-tagged one
exactly when the surface index equals the declared stop index and the
preceding gap is air, the untagged one exactly when the preceding gap is
air and the index is not the stop, and no dummy is emitted when the
preceding gap is not air.  The `#object`, `#stop` and empty tags are
attached to the fragments of the respective variants at the construction
site in `process_airgap`. -/
theorem c8_process_airgap_dummy_tags (seq : SeqModel) (tree : PNode) (i num_ele : Nat)
    (sfc : Ifc) (hs : seq.ifcs[i]? = some sfc)
    (ht : sfc.imode = IMode.transmit) (hthin : sfc.isThin = false) :
    (dummyParts (process_airgap seq tree i i i num_ele true).2.1 = [EPart.dummyObj i]
        ↔ i = 0) ∧
    (dummyParts (process_airgap seq tree i i i num_ele true).2.1 = [EPart.dummyStop i]
        ↔ i ≠ 0 ∧ prevGapAir seq i = true ∧ seq.stop_surface = some i) ∧
    (dummyParts (process_airgap seq tree i i i num_ele true).2.1 = [EPart.dummyPlain i i]
        ↔ i ≠ 0 ∧ prevGapAir seq i = true ∧ seq.stop_surface ≠ some i) ∧
    (dummyParts (process_airgap seq tree i i i num_ele true).2.1 = []
        ↔ i ≠ 0 ∧ prevGapAir seq i = false) := by
  by_cases h0 : i = 0
  · subst h0
    simp [process_airgap, hs, ht, hthin, dummyParts, isDummyPart, prevGapAir]
  · cases hgp : seq.gaps[i - 1]? with
    | none =>
      simp [process_airgap, hs, ht, hthin, h0, hgp, dummyParts, isDummyPart, prevGapAir]
    | some gp =>
      cases hair : gp.isAir
      · simp [process_airgap, hs, ht, hthin, h0, hgp, hair, dummyParts, isDummyPart,
          prevGapAir]
      · by_cases hstop : seq.stop_surface = some i
        · simp [process_airgap, hs, ht, hthin, h0, hgp, hair, hstop, dummyParts,
            isDummyPart, prevGapAir]
        · simp [process_airgap, hs, ht, hthin, h0, hgp, hair, hstop, dummyParts,
            isDummyPart, prevGapAir]

/-- C8 (witness): the stop-tagged case on the concrete stop sequence. -/
theorem c8_witness :
    dummyParts (process_airgap seqC8 root0 2 2 2 0 true).2.1 = [EPart.dummyStop 2] :=
  (c8_process_airgap_dummy_tags seqC8 root0 2 0 ⟨IMode.transmit, false⟩ (by decide)
    (by decide) (by decide)).2.1.mpr ⟨by decide, by decide, by decide⟩

mutual
/-- Helper for C9: a subtree with no node referencing `v` yields no match. -/
theorem findIdN_eq_none (v : Option Obj) :
    ∀ t : PNode, countN v t = 0 → findIdN v t = none
  | .mk n tg i cs, h => by
    have hiv : ¬ i = v := by
      intro hc
      simp [countN, hc] at h
    have hcs : countF v cs = 0 := by
      simp [countN, hiv] at h
      exact h
    simp [findIdN, hiv, findIdF_eq_none v cs hcs]
theorem findIdF_eq_none (v : Option Obj) :
    ∀ cs : PForest, countF v cs = 0 → findIdF v cs = none
  | .nil, _ => rfl
  | .cons c cs, h => by
    have hc : countN v c = 0 := by
      simp [countF] at h
      omega
    have hcs : countF v cs = 0 := by
      simp [countF] at h
      omega
    simp [findIdF, findIdN_eq_none v c hc, findIdF_eq_none v cs hcs]
end

mutual
/-- Helper for C9: the ancestor-chain search fails exactly when the node
search fails. -/
theorem chainN_none_iff (v : Option Obj) :
    ∀ t : PNode, (chainN v t = none ↔ findIdN v t = none)
  | .mk n tg i cs => by
    by_cases hiv : i = v
    · simp [chainN, findIdN, hiv]
    · simp only [chainN, findIdN, hiv, if_neg, ite_false]
      rw [Option.map_eq_none']
      exact chainF_none_iff v cs
theorem chainF_none_iff (v : Option Obj) :
    ∀ cs : PForest, (chainF v cs = none ↔ findIdF v cs = none)
  | .nil => by simp [chainF, findIdF]
  | .cons c cs => by
    have ihc := chainN_none_iff v c
    have ihcs := chainF_none_iff v cs
    simp only [chainF, findIdF]
    cases hc : chainN v c with
    | some l =>
      have : findIdN v c ≠ none := by
        intro hfn
        simp [ihc.mpr hfn] at hc
      cases hf : findIdN v c with
      | none => exact absurd hf this
      | some r => simp
    | none =>
      have hf : findIdN v c = none := ihc.mp hc
      simp [hf, ihcs]
end

/-- C9: `PartTree.node` returns none when no node of the tree references
the object, and `PartTree.parent_node` and `PartTree.parent_object` return
none both when the object is unknown to the tree and when no ancestor of
its node matches the tag filter. -/
theorem c9_lookup_miss (t : PNode) (x : Obj) (tagstr : String) :
    (countN (some x) t = 0 → part_tree_node t x = none) ∧
    (part_tree_node t x = none →
      parent_node t x tagstr = none ∧ parent_object t x tagstr = none) ∧
    (∀ anc, chainN (some x) t = some anc →
      (∀ a ∈ anc, tagFilterMatch tagstr a.tag = false) →
      parent_node t x tagstr = none ∧ parent_object t x tagstr = none) := by
  refine ⟨?_, ?_, ?_⟩
  · intro h
    exact findIdN_eq_none _ _ h
  · intro h
    have hc : chainN (some x) t = none := (chainN_none_iff _ t).mpr h
    constructor
    · simp [parent_node, hc]
    · simp [parent_object, parent_node, hc]
  · intro anc hanc hall
    have hfind : anc.find? (fun a => tagFilterMatch tagstr a.tag) = none :=
      List.find?_eq_none.mpr (fun a ha => by simp [hall a ha])
    constructor
    · simp [parent_node, hanc, hfind]
    · simp [parent_object, parent_node, hanc, hfind]

/-- C9 (witness): lookups of an object absent from the concrete tree. -/
theorem c9_witness :
    part_tree_node treeC2 (Obj.gap 5) = none ∧
    parent_node treeC2 (Obj.gap 5) "#element#airgap#dummyifc" = none ∧
    parent_object treeC2 (Obj.gap 5) "#element#airgap#dummyifc" = none := by
  have h1 := (c9_lookup_miss treeC2 (Obj.gap 5) "#element#airgap#dummyifc").1 (by decide)
  have h2 := (c9_lookup_miss treeC2 (Obj.gap 5) "#element#airgap#dummyifc").2.1 h1
  exact ⟨h1, h2.1, h2.2⟩

/-- Helper for C10: squared field heights are nonnegative. -/
theorem fld_sqrd_nonneg (f : FieldPt) : 0 ≤ fld_sqrd f :=
  add_nonneg (mul_self_nonneg _) (mul_self_nonneg _)

/-- Helper for C10: unfolding of the squared maximum on a cons cell. -/
theorem maxSqrd_cons (f : FieldPt) (fs : List FieldPt) :
    maxSqrd (f :: fs) = max (fld_sqrd f) (maxSqrd fs) := rfl

/-- Helper for C10: the squared maximum is nonnegative. -/
theorem maxSqrd_nonneg (fs : List FieldPt) : 0 ≤ maxSqrd fs := by
  induction fs with
  | nil => exact le_refl 0
  | cons f fs ih => exact le_trans ih (by rw [maxSqrd_cons]; exact le_max_right _ _)

/-- Helper for C10: every squared field height is below the squared
maximum. -/
theorem le_maxSqrd_of_mem (fs : List FieldPt) (f : FieldPt) (hf : f ∈ fs) :
    fld_sqrd f ≤ maxSqrd fs := by
  induction fs with
  | nil => cases hf
  | cons g gs ih =>
    rcases List.mem_cons.mp hf with h | h
    · subst h
      rw [maxSqrd_cons]
      exact le_max_left _ _
    · exact le_trans (ih h) (by rw [maxSqrd_cons]; exact le_max_right _ _)

/-- Helper for C10: the squared maximum vanishes exactly when every squared
field height does. -/
theorem maxSqrd_eq_zero_iff (fs : List FieldPt) :
    maxSqrd fs = 0 ↔ ∀ f ∈ fs, fld_sqrd f = 0 := by
  induction fs with
  | nil => simp [maxSqrd]
  | cons f fs ih =>
    have hmax : max (fld_sqrd f) (maxSqrd fs) = 0 ↔ fld_sqrd f = 0 ∧ maxSqrd fs = 0 := by
      constructor
      · intro h
        have h1 := le_max_left (fld_sqrd f) (maxSqrd fs)
        have h2 := le_max_right (fld_sqrd f) (maxSqrd fs)
        rw [h] at h1 h2
        exact ⟨le_antisymm h1 (fld_sqrd_nonneg f), le_antisymm h2 (maxSqrd_nonneg fs)⟩
      · rintro ⟨h1, h2⟩
        simp [h1, h2]
    rw [maxSqrd_cons, hmax, ih]
    simp

/-- Helper for C10: the fold of `max_field_aux` on an enumerated suffix
keeps an accumulator at or above the squared maximum unchanged and
otherwise produces the squared maximum together with the absolute index of
a field attaining it. -/
theorem mf_loop_spec (fs : List FieldPt) :
    ∀ (n : Nat) (a : Rat) (mi : Option Nat), 0 ≤ a →
      (maxSqrd fs ≤ a → (List.enumFrom n fs).foldl mf_step (a, mi) = (a, mi)) ∧
      (a < maxSqrd fs →
        ((List.enumFrom n fs).foldl mf_step (a, mi)).1 = maxSqrd fs ∧
        ∃ k, ∃ hk : k < fs.length,
          ((List.enumFrom n fs).foldl mf_step (a, mi)).2 = some (n + k) ∧
          fld_sqrd (fs.get ⟨k, hk⟩) = maxSqrd fs) := by
  induction fs with
  | nil =>
    intro n a mi ha
    constructor
    · intro _
      simp [List.enumFrom]
    · intro h
      exact absurd h (not_lt.mpr (le_trans (le_refl (maxSqrd [])) ha))
  | cons f fs ih =>
    intro n a mi ha
    have hstep : (List.enumFrom n (f :: fs)).foldl mf_step (a, mi)
        = (List.enumFrom (n + 1) fs).foldl mf_step (mf_step (a, mi) (n, f)) := by
      simp [List.enumFrom, List.foldl_cons]
    by_cases hgt : fld_sqrd f > a
    · have hstep2 : mf_step (a, mi) (n, f) = (fld_sqrd f, some n) := by
        simp [mf_step, hgt]
      constructor
      · intro hle
        exfalso
        have h1 : fld_sqrd f ≤ maxSqrd (f :: fs) := by
          rw [maxSqrd_cons]; exact le_max_left _ _
        linarith
      · intro _
        rcases le_or_lt (maxSqrd fs) (fld_sqrd f) with hcase | hcase
        · have h1 := (ih (n + 1) (fld_sqrd f) (some n) (fld_sqrd_nonneg f)).1 hcase
          rw [hstep, hstep2, h1]
          have hmx : maxSqrd (f :: fs) = fld_sqrd f := by
            rw [maxSqrd_cons]; exact max_eq_left hcase
          refine ⟨by simp [hmx], 0, by simp, by simp, ?_⟩
          simp [List.get, hmx]
        · obtain ⟨hfst, k, hk, hsnd, hval⟩ :=
            (ih (n + 1) (fld_sqrd f) (some n) (fld_sqrd_nonneg f)).2 hcase
          have hmx : maxSqrd (f :: fs) = maxSqrd fs := by
            rw [maxSqrd_cons]; exact max_eq_right (le_of_lt hcase)
          rw [hstep, hstep2]
          refine ⟨by rw [hfst, hmx], k + 1, by simpa using Nat.succ_lt_succ hk, ?_, ?_⟩
          · rw [hsnd]
            congr 1
            omega
          · rw [hmx, ← hval]
            rfl
    · have hfla : fld_sqrd f ≤ a := not_lt.mp hgt
      have hstep2 : mf_step (a, mi) (n, f) = (a, mi) := by
        simp [mf_step, hgt]
      constructor
      · intro hle2
        have hfs : maxSqrd fs ≤ a := by
          have : maxSqrd fs ≤ maxSqrd (f :: fs) := by
            rw [maxSqrd_cons]; exact le_max_right _ _
          linarith
        rw [hstep, hstep2]
        exact (ih (n + 1) a mi ha).1 hfs
      · intro hlt
        have hlt2 : a < maxSqrd fs := by
          by_contra hcon
          push_neg at hcon
          rw [maxSqrd_cons] at hlt
          exact absurd hlt (not_lt.mpr (max_le hfla hcon))
        obtain ⟨hfst, k, hk, hsnd, hval⟩ := (ih (n + 1) a mi ha).2 hlt2
        have hmx : maxSqrd (f :: fs) = maxSqrd fs := by
          rw [maxSqrd_cons]; exact max_eq_right (le_trans hfla (le_of_lt hlt2))
        rw [hstep, hstep2]
        refine ⟨by rw [hfst, hmx], k + 1, by simpa using Nat.succ_lt_succ hk, ?_, ?_⟩
        · rw [hsnd]
          congr 1
          omega
        · rw [hmx, ← hval]
          rfl

/-- Helper for C10: the loop of `max_field` starts the enumerated fold at
index 0 with accumulator `(0.0, None)`. -/
theorem max_field_aux_eq (fs : List FieldPt) :
    max_field_aux fs = (List.enumFrom 0 fs).foldl mf_step (0, none) := rfl

/-- C10: `FieldSpec.max_field` returns the square root of the maximum of
`x*x + y*y` over the fields together with the index of a field attaining
that maximum; when the field list is empty or every field has zero x and y
the result is the pair of 0.0 and the absent index None, which the caller
must handle. -/
theorem c10_max_field_spec (fs : List FieldPt) :
    (max_field fs).1 = Real.sqrt ((maxSqrd fs : Rat) : Real) ∧
    ((max_field fs).2 = none ↔ ∀ f ∈ fs, fld_sqrd f = 0) ∧
    ((max_field fs).2 = none → (max_field fs).1 = 0) ∧
    (∀ k, (max_field fs).2 = some k →
      ∃ hk : k < fs.length, fld_sqrd (fs.get ⟨k, hk⟩) = maxSqrd fs ∧ 0 < maxSqrd fs) := by
  have hspec := mf_loop_spec fs 0 0 none (le_refl 0)
  rcases le_or_lt (maxSqrd fs) 0 with hle | hlt
  · have hz : maxSqrd fs = 0 := le_antisymm hle (maxSqrd_nonneg fs)
    have haux : max_field_aux fs = (0, none) := by
      rw [max_field_aux_eq]
      exact hspec.1 hle
    refine ⟨?_, ?_, ?_, ?_⟩
    · simp [max_field, haux, hz]
    · constructor
      · intro _
        exact (maxSqrd_eq_zero_iff fs).mp hz
      · intro _
        simp [max_field, haux]
    · intro _
      simp [max_field, haux, Real.sqrt_eq_zero']
    · intro k hk2
      simp [max_field, haux] at hk2
  · obtain ⟨hfst, k, hk, hsnd, hval⟩ := hspec.2 hlt
    have haux1 : (max_field_aux fs).1 = maxSqrd fs := by
      rw [max_field_aux_eq]
      exact hfst
    have haux2 : (max_field_aux fs).2 = some k := by
      rw [max_field_aux_eq]
      simpa using hsnd
    refine ⟨?_, ?_, ?_, ?_⟩
    · simp [max_field, haux1]
    · constructor
      · intro h
        simp [max_field, haux2] at h
      · intro hall
        exfalso
        have := (maxSqrd_eq_zero_iff fs).mpr hall
        linarith
    · intro h
      exfalso
      simp [max_field, haux2] at h
    · intro k2 hk2
      have hkk : k2 = k := by
        simp [max_field, haux2] at hk2
        omega
      subst hkk
      exact ⟨hk, hval, hlt⟩

/-- C10 (witness): the first component on a one-field list is the square
root of the squared maximum 25. -/
theorem c10_witness :
    (max_field [⟨3, 4⟩]).1 = Real.sqrt ((25 : Rat) : Real) := by
  have h := (c10_max_field_spec [⟨3, 4⟩]).1
  have hm : maxSqrd [(⟨3, 4⟩ : FieldPt)] = 25 := by
    norm_num [maxSqrd, fld_sqrd]
  rw [h, hm]

mutual
/-- Helper for C4: detaching a subtree never increases the number of nodes
referencing any object. -/
theorem remF_count_le (v w : Option Obj) :
    ∀ (cs cs2 : PForest), remF w cs = some cs2 → countF v cs2 ≤ countF v cs
  | .nil, cs2, h => by simp [remF] at h
  | .cons c cs, cs2, h => by
    by_cases hcw : c.rid = w
    · simp only [remF, hcw, if_pos, Option.some.injEq] at h
      subst h
      simp only [countF]
      omega
    · cases hrn : remN w c with
      | some c2 =>
        simp only [remF, hcw, ite_false, hrn, Option.some.injEq, if_neg,
          not_false_iff] at h
        subst h
        have := remN_count_le v w c c2 hrn
        simp only [countF]
        omega
      | none =>
        simp only [remF, hcw, ite_false, hrn, if_neg, not_false_iff] at h
        cases hrf : remF w cs with
        | none => simp [hrf] at h
        | some cs3 =>
          rw [hrf] at h
          simp only [Option.map_some', Option.some.injEq] at h
          subst h
          have := remF_count_le v w cs cs3 hrf
          simp only [countF]
          omega
theorem remN_count_le (v w : Option Obj) :
    ∀ (t t2 : PNode), remN w t = some t2 → countN v t2 ≤ countN v t
  | .mk n tg i cs, t2, h => by
    simp only [remN] at h
    cases hrf : remF w cs with
    | none => simp [hrf] at h
    | some cs2 =>
      rw [hrf] at h
      simp only [Option.map_some', Option.some.injEq] at h
      subst h
      have := remF_count_le v w cs cs2 hrf
      simp only [countN]
      omega
end

mutual
/-- Helper for C4: when the removal search fails, no node references the
object. -/
theorem remF_none_count (w : Option Obj) :
    ∀ cs : PForest, remF w cs = none → countF w cs = 0
  | .nil, _ => rfl
  | .cons c cs, h => by
    by_cases hcw : c.rid = w
    · simp [remF, hcw] at h
    · cases hrn : remN w c with
      | some c2 => simp [remF, hcw, hrn] at h
      | none =>
        cases hrf : remF w cs with
        | some cs3 => simp [remF, hcw, hrn, hrf] at h
        | none =>
          have h1 := remN_none_count w c hrn
          have h2 := remF_none_count w cs hrf
          cases c with
          | mk n tg i ccs =>
            simp only [remN] at hrn
            have hi : ¬ i = w := by simpa [PNode.rid] using hcw
            simp only [countF, countN, hi, ite_false, if_neg, not_false_iff]
            simp only [PNode.children] at h1
            omega
theorem remN_none_count (w : Option Obj) :
    ∀ t : PNode, remN w t = none → countF w t.children = 0
  | .mk n tg i cs, h => by
    simp only [remN] at h
    cases hrf : remF w cs with
    | some cs2 => simp [hrf] at h
    | none => simpa [PNode.children] using remF_none_count w cs hrf
end

mutual
/-- Helper for C4: a successful removal removes at least one node
referencing the object. -/
theorem remF_some_count (w : Option Obj) :
    ∀ (cs cs2 : PForest), remF w cs = some cs2 → countF w cs2 + 1 ≤ countF w cs
  | .nil, cs2, h => by simp [remF] at h
  | .cons c cs, cs2, h => by
    by_cases hcw : c.rid = w
    · simp only [remF, hcw, if_pos, Option.some.injEq] at h
      subst h
      cases c with
      | mk n tg i ccs =>
        simp only [PNode.rid] at hcw
        simp [countF, countN, hcw]
        omega
    · cases hrn : remN w c with
      | some c2 =>
        simp only [remF, hcw, ite_false, hrn, Option.some.injEq, if_neg,
          not_false_iff] at h
        subst h
        have := remN_some_count w c c2 hrn
        simp only [countF]
        omega
      | none =>
        simp only [remF, hcw, ite_false, hrn, if_neg, not_false_iff] at h
        cases hrf : remF w cs with
        | none => simp [hrf] at h
        | some cs3 =>
          rw [hrf] at h
          simp only [Option.map_some', Option.some.injEq] at h
          subst h
          have := remF_some_count w cs cs3 hrf
          simp only [countF]
          omega
theorem remN_some_count (w : Option Obj) :
    ∀ (t t2 : PNode), remN w t = some t2 → countN w t2 + 1 ≤ countN w t
  | .mk n tg i cs, t2, h => by
    simp only [remN] at h
    cases hrf : remF w cs with
    | none => simp [hrf] at h
    | some cs2 =>
      rw [hrf] at h
      simp only [Option.map_some', Option.some.injEq] at h
      subst h
      have := remF_some_count w cs cs2 hrf
      simp only [countN]
      omega
end

/-- Helper for C4: detaching keeps the root node. -/
theorem removeFirst_rid (w : Option Obj) (t : PNode) :
    (removeFirst w t).rid = t.rid := by
  unfold removeFirst
  by_cases hw : t.rid = w
  · simp [hw]
  · cases t with
    | mk n tg i cs =>
      simp only [hw, ite_false, if_neg, not_false_iff]
      cases hrn : remN w (PNode.mk n tg i cs) with
      | none => rfl
      | some t2 =>
        simp only [remN] at hrn
        cases hrf : remF w cs with
        | none => simp [hrf] at hrn
        | some cs2 =>
          rw [hrf] at hrn
          simp only [Option.map_some', Option.some.injEq] at hrn
          subst hrn
          rfl

/-- Helper for C4: detaching never increases any reference count. -/
theorem removeFirst_count_le (v w : Option Obj) (t : PNode) :
    countN v (removeFirst w t) ≤ countN v t := by
  unfold removeFirst
  by_cases hw : t.rid = w
  · simp [hw]
  · simp only [hw, ite_false, if_neg, not_false_iff]
    cases hrn : remN w t with
    | none => exact le_refl _
    | some t2 => exact remN_count_le v w t t2 hrn

/-- Helper for C4: when the object is referenced at most once and not by
the root, detaching leaves no reference to it. -/
theorem removeFirst_self (w : Option Obj) (t : PNode)
    (hr : t.rid ≠ w) (hc : countN w t ≤ 1) :
    countN w (removeFirst w t) = 0 := by
  unfold removeFirst
  simp only [hr, ite_false, if_neg, not_false_iff]
  cases t with
  | mk n tg i cs =>
    have hi : ¬ i = w := by simpa [PNode.rid] using hr
    cases hrn : remN w (PNode.mk n tg i cs) with
    | none =>
      have := remN_none_count w _ hrn
      simp only [PNode.children] at this
      simp [countN, hi, this]
    | some t2 =>
      have hle := remN_some_count w _ t2 hrn
      have hcc : countN w (PNode.mk n tg i cs) = countF w cs := by
        simp [countN, hi]
      show countN w t2 = 0
      omega

/-- Helper for C4: the detach loop keeps the root node. -/
theorem foldRemove_rid (ls : List PNode) :
    ∀ t : PNode, (ls.foldl (fun r lf => removeFirst lf.rid r) t).rid = t.rid := by
  induction ls with
  | nil => intro t; rfl
  | cons lf ls ih =>
    intro t
    rw [List.foldl_cons, ih, removeFirst_rid]

/-- Helper for C4: the detach loop never increases any reference count. -/
theorem foldRemove_count_le (v : Option Obj) (ls : List PNode) :
    ∀ t : PNode, countN v (ls.foldl (fun r lf => removeFirst lf.rid r) t) ≤ countN v t := by
  induction ls with
  | nil => intro t; exact le_refl _
  | cons lf ls ih =>
    intro t
    rw [List.foldl_cons]
    exact le_trans (ih _) (removeFirst_count_le v _ t)

/-- Helper for C4: after the detach loop, no object referenced by one of
the processed leaves is referenced in the tree any more, provided the tree
root references nothing and every object was referenced at most once. -/
theorem foldRemove_zero (ls : List PNode) :
    ∀ t : PNode, t.rid = none → (∀ y : Obj, countN (some y) t ≤ 1) →
      ∀ lf ∈ ls, ∀ x : Obj, lf.rid = some x →
        countN (some x) (ls.foldl (fun r lf => removeFirst lf.rid r) t) = 0 := by
  induction ls with
  | nil =>
    intro t _ _ lf hlf
    cases hlf
  | cons lf0 ls ih =>
    intro t h0 h1 lf hlf x hx
    rw [List.foldl_cons]
    rcases List.mem_cons.mp hlf with heq | hmem
    · subst heq
      have hz : countN (some x) (removeFirst lf.rid t) = 0 := by
        rw [hx]
        exact removeFirst_self (some x) t (by rw [h0]; simp) (h1 x)
      have hle := foldRemove_count_le (some x) ls (removeFirst lf.rid t)
      omega
    · exact ih (removeFirst lf0.rid t)
        (by rw [removeFirst_rid]; exact h0)
        (fun y => le_trans (removeFirst_count_le _ _ t) (h1 y)) lf hmem x hx

/-- Helper for C4: leaf counts distribute over forest concatenation. -/
theorem leafCountF_append (v : Option Obj) :
    ∀ cs ds : PForest, leafCountF v (cs.append ds) = leafCountF v cs + leafCountF v ds
  | .nil, ds => by simp [PForest.append, leafCountF]
  | .cons c cs, ds => by
    simp only [PForest.append, leafCountF, leafCountF_append v cs ds]
    omega

/-- Helper for C4: leaf count of a tree after attaching a new last child. -/
theorem leafCountN_appendChild (v : Option Obj) (t c : PNode) :
    leafCountN v (appendChild t c) = leafCountF v t.children + leafCountN v c := by
  cases t with
  | mk n tg i cs =>
    cases cs with
    | nil =>
      simp [appendChild, PForest.append, leafCountN, leafCountF, PNode.children]
    | cons c0 cs0 =>
      simp only [appendChild, PNode.children]
      have happ := leafCountF_append v (PForest.cons c0 cs0) (PForest.cons c PForest.nil)
      have : leafCountN v (PNode.mk n tg i ((PForest.cons c0 cs0).append
          (PForest.cons c PForest.nil))) = leafCountF v ((PForest.cons c0 cs0).append
          (PForest.cons c PForest.nil)) := by
        simp [PForest.append, leafCountN]
      rw [this, happ]
      simp [leafCountF]

mutual
/-- Helper for C4: leaves referencing an object are among the nodes
referencing it. -/
theorem leafCountN_le_countN (v : Option Obj) :
    ∀ t : PNode, leafCountN v t ≤ countN v t
  | .mk n tg i .nil => by simp [leafCountN, countN, countF]
  | .mk n tg i (.cons c cs) => by
    have := leafCountF_le_countF v (.cons c cs)
    simp only [leafCountN, countN]
    omega
theorem leafCountF_le_countF (v : Option Obj) :
    ∀ cs : PForest, leafCountF v cs ≤ countF v cs
  | .nil => le_refl 0
  | .cons c cs => by
    have h1 := leafCountN_le_countN v c
    have h2 := leafCountF_le_countF v cs
    simp only [leafCountF, countF]
    omega
end

/-- Helper for C4: leaf count of the children forest against the whole
subtree count. -/
theorem leafCountF_children_le (v : Option Obj) (t : PNode) :
    leafCountF v t.children ≤ countN v t := by
  cases t with
  | mk n tg i cs =>
    have h1 := leafCountF_le_countF v cs
    simp only [PNode.children, countN]
    omega

mutual
/-- Helper for C4: the leaf count is the multiplicity among the leaf id
attributes. -/
theorem leafCountN_eq (v : Option Obj) :
    ∀ t : PNode, leafCountN v t = ((leavesN t).map PNode.rid).count v
  | .mk n tg i .nil => by
    simp [leafCountN, leavesN, PNode.rid, List.count_cons]
  | .mk n tg i (.cons c cs) => by
    simp only [leafCountN, leavesN]
    exact leafCountF_eq v (.cons c cs)
theorem leafCountF_eq (v : Option Obj) :
    ∀ cs : PForest, leafCountF v cs = ((leavesF cs).map PNode.rid).count v
  | .nil => by simp [leafCountF, leavesF]
  | .cons c cs => by
    have h1 := leafCountN_eq v c
    have h2 := leafCountF_eq v cs
    simp [leafCountF, leavesF, List.map_append, List.count_append, h1, h2]
end

mutual
/-- Helper for C4: the node count is the multiplicity among all id
attributes. -/
theorem countN_eq (v : Option Obj) :
    ∀ t : PNode, countN v t = (idsN t).count v
  | .mk n tg i cs => by
    have := countF_eq v cs
    simp only [countN, idsN, List.count_cons, this, beq_iff_eq]
    omega
theorem countF_eq (v : Option Obj) :
    ∀ cs : PForest, countF v cs = (idsF cs).count v
  | .nil => by simp [countF, idsF]
  | .cons c cs => by
    have h1 := countN_eq v c
    have h2 := countF_eq v cs
    simp [countF, idsF, List.count_append, h1, h2]
end

/-- Helper for C4: multiplicity of an object among a list of optional ids
after dropping the absent entries. -/
theorem count_filterMap_id (x : Obj) :
    ∀ l : List (Option Obj), (l.filterMap (fun o => o)).count x = l.count (some x)
  | [] => rfl
  | o :: l => by
    cases o with
    | none =>
      simp [List.filterMap_cons, count_filterMap_id x l, List.count_cons]
    | some a =>
      simp [List.filterMap_cons, List.count_cons, count_filterMap_id x l]

/-- Helper for C4: a duplicate-free id listing bounds every node count. -/
theorem count_le_one_of_nodup (t : PNode) (h : (someIdsN t).Nodup) (y : Obj) :
    countN (some y) t ≤ 1 := by
  rw [countN_eq, ← count_filterMap_id]
  exact List.nodup_iff_count_le_one.mp h y

/-- Helper for C4: a duplicate-free leaf id listing bounds every leaf
count. -/
theorem leafCount_le_one_of_nodup (t : PNode) (h : (someLeafIdsN t).Nodup) (x : Obj) :
    leafCountN (some x) t ≤ 1 := by
  rw [leafCountN_eq, ← count_filterMap_id]
  exact List.nodup_iff_count_le_one.mp h x

/-- Helper for C4: renaming the fragment root does not change its leaf id
attributes. -/
theorem someLeafIds_setName (t : PNode) (nm : String) :
    someLeafIdsN (setName t nm) = someLeafIdsN t := by
  cases t with
  | mk n tg i cs => cases cs <;> rfl

/-- C4: after a call of `add_element_to_tree` on a tree whose root carries
no referent, in which every object is referenced by at most one node, with
a fragment whose leaves reference pairwise distinct objects, every object
is referenced by at most one leaf of the resulting tree: the old owners of
the fragment leaf referents were detached before the fragment was attached
under the root. -/
theorem c4_attach_part_unique_leaves (tree frag : PNode) (label : String)
    (h0 : tree.rid = none)
    (h1 : (someIdsN tree).Nodup)
    (h2 : (someLeafIdsN frag).Nodup)
    (x : Obj) :
    leafCountN (some x) (add_element_to_tree tree frag label) ≤ 1 := by
  have h2e : (someLeafIdsN (setName frag label)).Nodup := by
    rw [someLeafIds_setName]
    exact h2
  have hc1 : ∀ y : Obj, countN (some y) tree ≤ 1 := count_le_one_of_nodup tree h1
  simp only [add_element_to_tree]
  rw [leafCountN_appendChild]
  by_cases hx : leafCountN (some x) (setName frag label) = 0
  · rw [hx]
    have hle := foldRemove_count_le (some x) (leavesN (setName frag label)) tree
    have hcx := hc1 x
    have hch := leafCountF_children_le (some x)
      ((leavesN (setName frag label)).foldl (fun r lf => removeFirst lf.rid r) tree)
    omega
  · have hxpos : 0 < leafCountN (some x) (setName frag label) :=
      Nat.pos_of_ne_zero hx
    have hmem : ∃ lf ∈ leavesN (setName frag label), lf.rid = some x := by
      rw [leafCountN_eq] at hxpos
      have hmm : some x ∈ (leavesN (setName frag label)).map PNode.rid :=
        List.count_pos_iff.mp hxpos
      obtain ⟨lf, hlf, hrid⟩ := List.mem_map.mp hmm
      exact ⟨lf, hlf, hrid⟩
    obtain ⟨lf, hlf, hrid⟩ := hmem
    have hz : countN (some x)
        ((leavesN (setName frag label)).foldl (fun r lf => removeFirst lf.rid r) tree) = 0 :=
      foldRemove_zero (leavesN (setName frag label)) tree h0 hc1 lf hlf x hrid
    have hle1 : leafCountN (some x) (setName frag label) ≤ 1 :=
      leafCount_le_one_of_nodup _ h2e x
    have hch := leafCountF_children_le (some x)
      ((leavesN (setName frag label)).foldl (fun r lf => removeFirst lf.rid r) tree)
    omega

/-- C4 (witness): attaching a lens fragment to the initialized two-leaf
tree leaves interface 1 referenced by at most one leaf. -/
theorem c4_witness :
    leafCountN (some (Obj.ifc 1))
      (add_element_to_tree rootW (partFragment (EPart.lens 1 1 2 1) "") "E1") ≤ 1 :=
  c4_attach_part_unique_leaves rootW (partFragment (EPart.lens 1 1 2 1) "") "E1"
    (by decide) (by decide) (by decide) (Obj.ifc 1)

/-- Helper for C6: the label well-formedness test, unfolded. -/
theorem okLabelB_spec (l : String) (h : okLabelB l = true) :
    l.data ≠ [] ∧ l.data.take 1 ≠ ['i'] ∧ l.data.take 1 ≠ ['g'] ∧
    l.data.take 1 ≠ ['p'] ∧ l.data.take 2 ≠ ['d', 'i'] ∧ l.data.take 2 ≠ ['t', 'l'] := by
  simp only [okLabelB, Bool.and_eq_true, Bool.not_eq_true', beq_eq_false_iff_ne] at h
  obtain ⟨⟨⟨⟨⟨h0, h1⟩, h2⟩, h3⟩, h4⟩, h5⟩ := h
  refine ⟨?_, h1, h2, h3, h4, h5⟩
  intro hnil
  rw [hnil] at h0
  simp at h0

/-- Helper for C6: the name of an interface node produced by the update
pass starts with the i character. -/
theorem iName_data (idx : Nat) :
    ("i" ++ toString idx).data = 'i' :: (toString idx).data := by
  rw [String.data_append]; rfl

/-- Helper for C6: the name of a gap node produced by the update pass. -/
theorem gName_data (idx : Nat) :
    ("g" ++ toString idx).data = 'g' :: (toString idx).data := by
  rw [String.data_append]; rfl

/-- Helper for C6: the name of a di node produced by the update pass. -/
theorem diName_data (idx : Nat) :
    ("di" ++ toString idx).data = 'd' :: 'i' :: (toString idx).data := by
  rw [String.data_append]; rfl

/-- Helper for C6: the name of a tl node produced by the update pass. -/
theorem tlName_data (idx : Nat) :
    ("tl" ++ toString idx).data = 't' :: 'l' :: (toString idx).data := by
  rw [String.data_append]; rfl

/-- Helper for C6: when a name matches none of the reserved forms, the
update renaming falls through to the label branch. -/
theorem update_data_else (ed : List Ele) (seq : SeqModel) (pn : Option String)
    (name : String) (old : Option Obj)
    (hne : name.data ≠ [])
    (h1 : name.data.take 1 ≠ ['i']) (h2 : name.data.take 1 ≠ ['g'])
    (h3 : name.data.take 1 ≠ ['p']) (h4 : name.data.take 2 ≠ ['d', 'i'])
    (h5 : name.data.take 2 ≠ ['t', 'l']) :
    update_data ed seq pn name old =
      match old with
      | some (Obj.ele l) => some (l, old)
      | _ => some (name, old) := by
  cases hhd : name.data.head? with
  | none => exact absurd (by simpa using hhd) hne
  | some c0 =>
    simp only [update_data, hhd]
    rw [if_neg h1, if_neg h2, if_neg h3, if_neg h4, if_neg h5]

/-- Helper for C6: one more run of the per-node renaming of
`sync_part_tree_on_update` on its own output (same parent name, unchanged
models) returns the same name and referent. -/
theorem update_data_fix (ed : List Ele) (seq : SeqModel) (pn : Option String)
    (name : String) (old : Option Obj) (n1 : String) (o1 : Option Obj)
    (hok : okRid old = true)
    (h : update_data ed seq pn name old = some (n1, o1)) :
    update_data ed seq pn n1 o1 = some (n1, o1) := by
  cases hh : name.data.head? with
  | none => simp [update_data, hh] at h
  | some c0 =>
  simp only [update_data, hh] at h
  by_cases hi : name.data.take 1 = ['i']
  · simp only [hi, ite_true, if_pos] at h
    cases hidx : index_ifcs seq old with
    | none => simp [hidx] at h
    | some idx =>
      simp [hidx] at h
      obtain ⟨hn1, ho1⟩ := h
      subst hn1
      subst ho1
      simp [update_data, iName_data, hidx]
  · by_cases hg : name.data.take 1 = ['g']
    · simp [hi, hg] at h
      cases hidx : index_gaps seq old with
      | none => simp [hidx] at h
      | some idx =>
        simp [hidx] at h
        obtain ⟨hn1, ho1⟩ := h
        subst hn1
        subst ho1
        simp [update_data, gName_data, hidx]
    · by_cases hp : name.data.take 1 = ['p']
      · simp [hi, hg, hp] at h
        cases pn with
        | none => simp at h
        | some pname =>
          cases hel : ele_lookup ed pname with
          | none => simp [hel] at h
          | some e =>
            simp only [hel] at h
            by_cases hlen : 1 < name.length
            · simp [hlen] at h
              cases hpn : parseNat name.data.tail with
              | none => simp [hpn] at h
              | some k =>
                simp only [hpn] at h
                cases hr : (if k = 0 then e.ifc_list.getLast? else e.ifc_list[k - 1]?) with
                | none => simp [hr] at h
                | some r =>
                  simp [hr] at h
                  obtain ⟨hn1, ho1⟩ := h
                  subst hn1
                  subst ho1
                  simp [update_data, hh, hi, hg, hp, hel, hlen, hpn, hr]
            · simp [hlen] at h
              cases hr : e.ifc_list[0]? with
              | none => simp [hr] at h
              | some r =>
                simp [hr] at h
                obtain ⟨hn1, ho1⟩ := h
                subst hn1
                subst ho1
                simp [update_data, hh, hi, hg, hp, hel, hlen, hr]
      · by_cases hdi : name.data.take 2 = ['d', 'i']
        · simp [hi, hg, hp, hdi] at h
          cases pn with
          | none => simp at h
          | some pname =>
            cases hel : ele_lookup ed pname with
            | none => simp [hel] at h
            | some e =>
              simp only [hel] at h
              cases hrf : e.ref_ifc with
              | none => simp [hrf] at h
              | some r =>
                simp only [hrf] at h
                by_cases hlt : r < seq.ifcs.length
                · simp [hlt] at h
                  obtain ⟨hn1, ho1⟩ := h
                  subst hn1
                  subst ho1
                  simp [update_data, diName_data, hel, hrf, hlt]
                · simp [hlt] at h
        · by_cases htl : name.data.take 2 = ['t', 'l']
          · simp [hi, hg, hp, hdi, htl] at h
            cases pn with
            | none => simp at h
            | some pname =>
              cases hel : ele_lookup ed pname with
              | none => simp [hel] at h
              | some e =>
                simp only [hel] at h
                cases hrf : e.intrfc with
                | none => simp [hrf] at h
                | some r =>
                  simp only [hrf] at h
                  by_cases hlt : r < seq.ifcs.length
                  · simp [hlt] at h
                    obtain ⟨hn1, ho1⟩ := h
                    subst hn1
                    subst ho1
                    simp [update_data, tlName_data, hel, hrf, hlt]
                  · simp [hlt] at h
          · simp [hi, hg, hp, hdi, htl] at h
            cases old with
            | none =>
              simp at h
              obtain ⟨hn1, ho1⟩ := h
              subst hn1
              subst ho1
              simp [update_data, hh, hi, hg, hp, hdi, htl]
            | some obj =>
              cases obj with
              | ele l =>
                simp at h
                obtain ⟨hn1, ho1⟩ := h
                subst hn1
                subst ho1
                have hokl : okLabelB l = true := by simpa [okRid] using hok
                have hprops := okLabelB_spec l hokl
                rw [update_data_else ed seq pn l (some (Obj.ele l)) hprops.1
                  hprops.2.1 hprops.2.2.1 hprops.2.2.2.1 hprops.2.2.2.2.1
                  hprops.2.2.2.2.2]
              | ifc j =>
                simp at h
                obtain ⟨hn1, ho1⟩ := h
                subst hn1
                subst ho1
                simp [update_data, hh, hi, hg, hp, hdi, htl]
              | gap j =>
                simp at h
                obtain ⟨hn1, ho1⟩ := h
                subst hn1
                subst ho1
                simp [update_data, hh, hi, hg, hp, hdi, htl]
              | profile j =>
                simp at h
                obtain ⟨hn1, ho1⟩ := h
                subst hn1
                subst ho1
                simp [update_data, hh, hi, hg, hp, hdi, htl]

mutual
/-- Helper for C6: a second update pass over the output of a first pass
(unchanged models, well-formed element labels) reproduces it exactly. -/
theorem updateN_fix (ed : List Ele) (seq : SeqModel) :
    ∀ (pn : Option String) (t t1 : PNode), okEleN t = true →
      updateN ed seq pn t = some t1 → updateN ed seq pn t1 = some t1
  | pn, .mk n tg i cs, t1, hok, h => by
    simp only [updateN] at h
    cases hud : update_data ed seq pn n i with
    | none => rw [hud] at h; simp at h
    | some pr =>
      obtain ⟨n2, i2⟩ := pr
      simp only [hud] at h
      cases hcs : updateF ed seq (some n2) cs with
      | none => simp [hcs] at h
      | some cs2 =>
        simp only [hcs, Option.some.injEq] at h
        subst h
        have hokr : okRid i = true := by
          simp only [okEleN, Bool.and_eq_true] at hok
          exact hok.1
        have hokf : okEleF cs = true := by
          simp only [okEleN, Bool.and_eq_true] at hok
          exact hok.2
        have hud2 := update_data_fix ed seq pn n i n2 i2 hokr hud
        have hcs2 := updateF_fix ed seq (some n2) cs cs2 hokf hcs
        simp only [updateN, hud2, hcs2]
theorem updateF_fix (ed : List Ele) (seq : SeqModel) :
    ∀ (pn : Option String) (cs cs1 : PForest), okEleF cs = true →
      updateF ed seq pn cs = some cs1 → updateF ed seq pn cs1 = some cs1
  | pn, .nil, cs1, _, h => by
    simp only [updateF, Option.some.injEq] at h
    subst h
    rfl
  | pn, .cons c cs, cs1, hok, h => by
    simp only [updateF] at h
    cases hc : updateN ed seq pn c with
    | none => simp [hc] at h
    | some c2 =>
      cases hcs : updateF ed seq pn cs with
      | none => simp [hc, hcs] at h
      | some cs2 =>
        simp only [hc, hcs, Option.some.injEq] at h
        subst h
        have hok1 : okEleN c = true := by
          simp only [okEleF, Bool.and_eq_true] at hok
          exact hok.1
        have hok2 : okEleF cs = true := by
          simp only [okEleF, Bool.and_eq_true] at hok
          exact hok.2
        have hc2 := updateN_fix ed seq pn c c2 hok1 hc
        have hcs2 := updateF_fix ed seq pn cs cs2 hok2 hcs
        simp only [updateF, hc2, hcs2]
end

/-- C6: running `sync_part_tree_on_update` twice with no intervening change
to the sequence model or element list produces identical node names both
times, provided every element referenced in the tree carries a label that
does not collide with the reserved name forms (the catalog templates do
not). -/
theorem c6_update_idempotent (ed : List Ele) (seq : SeqModel) (root t1 t2 : PNode)
    (hok : okEleN root = true)
    (h1 : sync_part_tree_on_update ed seq root = some t1)
    (h2 : sync_part_tree_on_update ed seq t1 = some t2) :
    namesN t2 = namesN t1 := by
  have hfix := updateN_fix ed seq none root t1 hok h1
  rw [sync_part_tree_on_update, hfix] at h2
  simp only [Option.some.injEq] at h2
  rw [h2]

/-- C6 (witness): two update passes over the stale-named tree; the first
pass renames i3 to i1, g2 to g1 and di9 to di2, and the second pass
reproduces those names. -/
theorem c6_witness :
    namesN (PNode.mk "root" "#group#root" none
      (PForest.ofList
        [PNode.mk "i1" "#ifc" (some (Obj.ifc 1)) PForest.nil,
         PNode.mk "g1" "#gap" (some (Obj.gap 1)) PForest.nil,
         PNode.mk "D2" "#element#dummyifc" (some (Obj.ele "D2"))
           (PForest.cons (PNode.mk "di2" "#ifc" (some (Obj.ifc 2)) PForest.nil)
             PForest.nil)])) =
    namesN (PNode.mk "root" "#group#root" none
      (PForest.ofList
        [PNode.mk "i1" "#ifc" (some (Obj.ifc 1)) PForest.nil,
         PNode.mk "g1" "#gap" (some (Obj.gap 1)) PForest.nil,
         PNode.mk "D2" "#element#dummyifc" (some (Obj.ele "D2"))
           (PForest.cons (PNode.mk "di2" "#ifc" (some (Obj.ifc 2)) PForest.nil)
             PForest.nil)])) :=
  c6_update_idempotent edC6 seqA treeC6 _ _ (by decide) (by decide) (by decide)

/-- Helper for C7: a predicate holding on a list and on the default holds
on an indexed read with default. -/
theorem pred_getD {α : Type} (P : α → Prop) (l : List α) (n : Nat) (d : α)
    (hl : ∀ s ∈ l, P s) (hd : P d) : P (l.getD n d) := by
  rw [List.getD_eq_getElem?_getD]
  cases hg : l[n]? with
  | none => simpa using hd
  | some v => simpa using hl v (List.getElem?_mem hg)

/-- Helper for C7: a predicate holding on a list and on the default holds
on the last element with default. -/
theorem pred_getLastD {α : Type} (P : α → Prop) (l : List α) (d : α)
    (hl : ∀ s ∈ l, P s) (hd : P d) : P (l.getLastD d) := by
  rw [List.getLastD_eq_getLast?]
  cases hg : l.getLast? with
  | none => simpa using hd
  | some v => simpa using hl v (List.mem_of_mem_getLast? hg)

/-- Helper for C7: the physical parts of a concatenation. -/
theorem physParts_append (ps qs : List EPart) :
    physParts (ps ++ qs) = physParts ps ++ physParts qs :=
  List.filter_append ps qs

/-- Helper for C7: the physical label numbers of a concatenation. -/
theorem physNums_append (ps qs : List EPart) :
    physNums (ps ++ qs) = physNums ps ++ physNums qs := by
  simp [physNums, physParts_append]

/-- Helper for C7: gluing two runs of consecutive label numbers. -/
theorem range1_glue (k m : Nat) :
    List.range' 1 k ++ List.range' (k + 1) m = List.range' 1 (k + m) := by
  have h := List.range'_append 1 k m 1
  simp only [one_mul] at h
  rw [Nat.add_comm 1 k] at h
  rw [h, Nat.add_comm m k]

/-- Helper for C7: the parts emitted by one `process_airgap` call (with the
caller index passed for the loop index, the gap and the surface): the
element counter advances by the number of emitted physical parts, those
parts continue the shared numbering, every emitted AirGap is numbered by
its gap index, and every emitted plain dummy by its surface index. -/
theorem process_airgap_parts (seq : SeqModel) (tree : PNode) (i ne : Nat) :
    (process_airgap seq tree i i i ne true).2.2 =
        ne + (physParts (process_airgap seq tree i i i ne true).2.1).length ∧
    physNums (process_airgap seq tree i i i ne true).2.1 =
      List.range' (ne + 1)
        (physParts (process_airgap seq tree i i i ne true).2.1).length ∧
    (∀ p ∈ (process_airgap seq tree i i i ne true).2.1,
      ∀ a g, p = EPart.airgap a g → a = g) ∧
    (∀ p ∈ (process_airgap seq tree i i i ne true).2.1,
      ∀ a j, p = EPart.dummyPlain a j → a = j) := by
  cases hs : seq.ifcs[i]? with
  | none =>
    refine ⟨by simp [process_airgap, hs, physParts], by simp [process_airgap, hs,
      physParts, physNums], ?_, ?_⟩ <;>
      simp [process_airgap, hs]
  | some sfc =>
    cases himode : sfc.imode with
    | reflect =>
      have hparts : (process_airgap seq tree i i i ne true).2.1
            = [EPart.mirror (ne + 1) i, EPart.airgap i i] ∧
          (process_airgap seq tree i i i ne true).2.2 = ne + 1 := by
        constructor <;> simp [process_airgap, hs, himode]
      rw [hparts.1, hparts.2]
      refine ⟨by simp [physParts, isPhysPart],
        by simp [physParts, physNums, isPhysPart, partNum, List.range'_one], ?_, ?_⟩
      · rintro p hp a g rfl
        simp at hp
        omega
      · rintro p hp a j rfl
        simp at hp
    | transmit =>
      by_cases hthin : sfc.isThin = true
      · have hparts : (process_airgap seq tree i i i ne true).2.1
              = [EPart.thin (ne + 1) i, EPart.airgap i i] ∧
            (process_airgap seq tree i i i ne true).2.2 = ne + 1 := by
          constructor <;> simp [process_airgap, hs, himode, hthin]
        rw [hparts.1, hparts.2]
        refine ⟨by simp [physParts, isPhysPart],
          by simp [physParts, physNums, isPhysPart, partNum, List.range'_one], ?_, ?_⟩
        · rintro p hp a g rfl
          simp at hp
          omega
        · rintro p hp a j rfl
          simp at hp
      · have hag : ∀ ps : List EPart,
            (∀ p ∈ ps, ∀ a g, p = EPart.airgap a g → a = g) →
            (∀ p ∈ ps, ∀ a j, p = EPart.dummyPlain a j → a = j) →
            physParts ps = [] →
            (process_airgap seq tree i i i ne true).2.1 = ps →
            (process_airgap seq tree i i i ne true).2.2 = ne →
            ((process_airgap seq tree i i i ne true).2.2 =
                ne + (physParts (process_airgap seq tree i i i ne true).2.1).length ∧
              physNums (process_airgap seq tree i i i ne true).2.1 =
                List.range' (ne + 1)
                  (physParts (process_airgap seq tree i i i ne true).2.1).length ∧
              (∀ p ∈ (process_airgap seq tree i i i ne true).2.1,
                ∀ a g, p = EPart.airgap a g → a = g) ∧
              (∀ p ∈ (process_airgap seq tree i i i ne true).2.1,
                ∀ a j, p = EPart.dummyPlain a j → a = j)) := by
          intro ps hag hdu hphys hps hne
          rw [hps, hne, hphys]
          exact ⟨by simp, by simp [physNums, hphys], hag, hdu⟩
        by_cases h0 : i = 0
        · subst h0
          refine hag [EPart.dummyObj 0, EPart.airgap 0 0] ?_ ?_ ?_ ?_ ?_
          · rintro p hp a g rfl
            simp at hp
            omega
          · rintro p hp a j rfl
            simp at hp
          · simp [physParts, isPhysPart]
          · simp [process_airgap, hs, himode, hthin]
          · simp [process_airgap, hs, himode, hthin]
        · cases hgp : seq.gaps[i - 1]? with
          | none =>
            refine hag [EPart.airgap i i] ?_ ?_ ?_ ?_ ?_
            · rintro p hp a g rfl
              simp at hp
              omega
            · rintro p hp a j rfl
              simp at hp
            · simp [physParts, isPhysPart]
            · simp [process_airgap, hs, himode, hthin, h0, hgp]
            · simp [process_airgap, hs, himode, hthin, h0, hgp]
          | some gp =>
            cases hair : gp.isAir
            · refine hag [EPart.airgap i i] ?_ ?_ ?_ ?_ ?_
              · rintro p hp a g rfl
                simp at hp
                omega
              · rintro p hp a j rfl
                simp at hp
              · simp [physParts, isPhysPart]
              · simp [process_airgap, hs, himode, hthin, h0, hgp, hair]
              · simp [process_airgap, hs, himode, hthin, h0, hgp, hair]
            · by_cases hstop : seq.stop_surface = some i
              · refine hag [EPart.dummyStop i, EPart.airgap i i] ?_ ?_ ?_ ?_ ?_
                · rintro p hp a g rfl
                  simp at hp
                  omega
                · rintro p hp a j rfl
                  simp at hp
                · simp [physParts, isPhysPart]
                · simp [process_airgap, hs, himode, hthin, h0, hgp, hair, hstop]
                · simp [process_airgap, hs, himode, hthin, h0, hgp, hair, hstop]
              · refine hag [EPart.dummyPlain i i, EPart.airgap i i] ?_ ?_ ?_ ?_ ?_
                · rintro p hp a g rfl
                  simp at hp
                  omega
                · rintro p hp a j rfl
                  simp at hp
                  omega
                · simp [physParts, isPhysPart]
                · simp [process_airgap, hs, himode, hthin, h0, hgp, hair, hstop]
                · simp [process_airgap, hs, himode, hthin, h0, hgp, hair, hstop]

/-- Helper for C7: extending a numbering-consistent part list with one
physical part carrying the next shared number, followed by an AirGap
numbered by its gap index, preserves the invariant. -/
theorem efsInv_snoc_phys (ne : Nat) (tr : PNode) (ps : List EPart) (e : EPart)
    (a : Nat)
    (he : isPhysPart e = true)
    (hen : partNum e = ne + 1)
    (hnotag : ∀ x g, e ≠ EPart.airgap x g)
    (hnotdu : ∀ x j, e ≠ EPart.dummyPlain x j)
    (h1 : ne = (physParts ps).length)
    (h2 : physNums ps = List.range' 1 (physParts ps).length)
    (h3 : ∀ p ∈ ps, ∀ x g, p = EPart.airgap x g → x = g)
    (h4 : ∀ p ∈ ps, ∀ x j, p = EPart.dummyPlain x j → x = j) :
    EfsInv ⟨ne + 1, [], false, tr, ps ++ [e, EPart.airgap a a]⟩ := by
  have hphys : physParts [e, EPart.airgap a a] = [e] := by
    have hagf : isPhysPart (EPart.airgap a a) = false := rfl
    simp [physParts, List.filter_cons, he, hagf]
  refine ⟨?_, ?_, ?_, ?_, by simp⟩
  · show ne + 1 = (physParts (ps ++ [e, EPart.airgap a a])).length
    rw [physParts_append, hphys, List.length_append, ← h1]
    simp
  · show physNums (ps ++ [e, EPart.airgap a a]) =
      List.range' 1 (physParts (ps ++ [e, EPart.airgap a a])).length
    rw [physNums_append, h2, physParts_append, hphys, List.length_append, ← h1]
    have hr := @List.range'_concat 1 1 ne
    simp only [one_mul] at hr
    rw [Nat.add_comm 1 ne] at hr
    simp [physNums, hphys, hen, hr]
  · intro p hp x g hpe
    rcases List.mem_append.mp hp with hmem | hmem
    · exact h3 p hmem x g hpe
    · rcases List.mem_cons.mp hmem with rfl | hmem2
      · exact absurd hpe (hnotag x g)
      · rcases List.mem_cons.mp hmem2 with rfl | hmem3
        · cases hpe
          rfl
        · cases hmem3
  · intro p hp x j hpe
    rcases List.mem_append.mp hp with hmem | hmem
    · exact h4 p hmem x j hpe
    · rcases List.mem_cons.mp hmem with rfl | hmem2
      · exact absurd hpe (hnotdu x j)
      · rcases List.mem_cons.mp hmem2 with rfl | hmem3
        · cases hpe
        · cases hmem3

/-- Helper for C7: extending a numbering-consistent part list with one
AirGap numbered by its gap index preserves the invariant. -/
theorem efsInv_snoc_ag (ne : Nat) (tr : PNode) (ps : List EPart) (a : Nat)
    (h1 : ne = (physParts ps).length)
    (h2 : physNums ps = List.range' 1 (physParts ps).length)
    (h3 : ∀ p ∈ ps, ∀ x g, p = EPart.airgap x g → x = g)
    (h4 : ∀ p ∈ ps, ∀ x j, p = EPart.dummyPlain x j → x = j) :
    EfsInv ⟨ne, [], false, tr, ps ++ [EPart.airgap a a]⟩ := by
  have hphys : physParts [EPart.airgap a a] = [] := by
    simp [physParts, List.filter, isPhysPart]
  refine ⟨?_, ?_, ?_, ?_, by simp⟩
  · show ne = (physParts (ps ++ [EPart.airgap a a])).length
    rw [physParts_append, hphys, List.length_append, ← h1]
    simp
  · show physNums (ps ++ [EPart.airgap a a]) =
      List.range' 1 (physParts (ps ++ [EPart.airgap a a])).length
    rw [physNums_append, h2, physParts_append, hphys, List.length_append, ← h1]
    simp [physNums, hphys]
  · intro p hp x g hpe
    rcases List.mem_append.mp hp with hmem | hmem
    · exact h3 p hmem x g hpe
    · rcases List.mem_cons.mp hmem with rfl | hmem2
      · cases hpe
        rfl
      · cases hmem2
  · intro p hp x j hpe
    rcases List.mem_append.mp hp with hmem | hmem
    · exact h4 p hmem x j hpe
    · rcases List.mem_cons.mp hmem with rfl | hmem2
      · cases hpe
      · cases hmem2

/-- Helper for C7: closing a pending run preserves the numbering
invariant: the Lens and CementedElement draw the next shared number and
the closing AirGap is numbered by its gap index. -/
theorem efs_close_run_inv (i : Nat) (e0 : Nat × Nat × Nat)
    (tl : List (Nat × Nat × Nat)) (ne : Nat) (br : Bool) (tr : PNode)
    (ps : List EPart)
    (h1 : ne = (physParts ps).length)
    (h2 : physNums ps = List.range' 1 (physParts ps).length)
    (h3 : ∀ p ∈ ps, ∀ x g, p = EPart.airgap x g → x = g)
    (h4 : ∀ p ∈ ps, ∀ x j, p = EPart.dummyPlain x j → x = j)
    (h5 : ∀ s ∈ e0 :: tl, s.2.1 = s.1 ∧ s.2.2 = s.1) :
    EfsInv (efs_close_run i e0 tl ne br tr ps) := by
  have hdiagcur : ∀ br2 : Bool,
      ((if br2 then tl.getD 0 (i, i, i) else (i, i, i)) : Nat × Nat × Nat).2.2 =
      (if br2 then tl.getD 0 (i, i, i) else (i, i, i)).1 := by
    intro br2
    cases br2
    · simp
    · simp only [ite_true, if_pos]
      have := pred_getD (fun s : Nat × Nat × Nat => s.2.1 = s.1 ∧ s.2.2 = s.1) tl 0
        (i, i, i) (fun s hs => h5 s (List.mem_cons_of_mem _ hs)) (by simp)
      exact this.2
  cases br with
  | false =>
    simp only [efs_close_run, ite_false, if_neg, Bool.false_eq_true, not_false_iff]
    by_cases hn1 : (e0 :: tl).length = 1
    · rw [if_pos hn1]
      exact efsInv_snoc_phys ne _ ps _ i (by simp [isPhysPart]) (by simp [partNum])
        (by intro x g hc; cases hc) (by intro x j hc; cases hc) h1 h2 h3 h4
    · rw [if_neg hn1]
      by_cases hn2 : 1 < (e0 :: tl).length
      · rw [if_pos hn2]
        rw [List.getLastD_concat]
        exact efsInv_snoc_phys ne _ ps _ i (by simp [isPhysPart]) (by simp [partNum])
          (by intro x g hc; cases hc) (by intro x j hc; cases hc) h1 h2 h3 h4
      · rw [if_neg hn2]
        exact efsInv_snoc_ag ne _ ps i h1 h2 h3 h4
  | true =>
    simp only [efs_close_run, ite_true, if_pos]
    by_cases hn1 : (e0 :: tl).length / 2 = 1
    · rw [if_pos hn1]
      rw [List.getLastD_concat]
      exact efsInv_snoc_phys ne _ ps _ i (by simp [isPhysPart]) (by simp [partNum])
        (by intro x g hc; cases hc) (by intro x j hc; cases hc) h1 h2 h3 h4
    · rw [if_neg hn1]
      by_cases hn2 : 1 < (e0 :: tl).length / 2
      · rw [if_pos hn2]
        rw [List.getLastD_concat]
        exact efsInv_snoc_phys ne _ ps _ i (by simp [isPhysPart]) (by simp [partNum])
          (by intro x g hc; cases hc) (by intro x j hc; cases hc) h1 h2 h3 h4
      · rw [if_neg hn2]
        have hd := hdiagcur true
        simp only [ite_true, if_pos] at hd
        rw [hd]
        exact efsInv_snoc_ag ne _ ps (tl.getD 0 (i, i, i)).1 h1 h2 h3 h4

/-- Helper for C7: one loop iteration preserves the numbering invariant. -/
theorem efs_step_inv (seq : SeqModel) (i : Nat) (st : EfsState)
    (hInv : EfsInv st) : EfsInv (efs_step seq st i) := by
  obtain ⟨ne, eles, br, tr, ps⟩ := st
  simp only [EfsInv] at hInv
  obtain ⟨h1, h2, h3, h4, h5⟩ := hInv
  cases hsi : seq.ifcs[i]? with
  | none =>
    simp only [efs_step, hsi]
    exact ⟨h1, h2, h3, h4, h5⟩
  | some ifc =>
    cases hgi : seq.gaps[i]? with
    | none =>
      simp only [efs_step, hsi, hgi]
      exact ⟨h1, h2, h3, h4, h5⟩
    | some gd =>
      simp only [efs_step, hsi, hgi]
      by_cases hair : gd.isAir = true
      · rw [if_pos hair]
        cases eles with
        | nil =>
          by_cases hi0 : 0 < i
          · rw [if_pos hi0]
            obtain ⟨pa1, pa2, pa3, pa4⟩ := process_airgap_parts seq tr i ne
            refine ⟨?_, ?_, ?_, ?_, by simp⟩
            · show (process_airgap seq tr i i i ne true).2.2 =
                (physParts (ps ++ (process_airgap seq tr i i i ne true).2.1)).length
              rw [physParts_append, List.length_append, pa1, h1]
            · show physNums (ps ++ (process_airgap seq tr i i i ne true).2.1) =
                List.range' 1
                  (physParts (ps ++ (process_airgap seq tr i i i ne true).2.1)).length
              rw [physNums_append, h2, pa2, physParts_append, List.length_append, h1]
              exact range1_glue _ _
            · intro p hp x g hpe
              rcases List.mem_append.mp hp with hm | hm
              · exact h3 p hm x g hpe
              · exact pa3 p hm x g hpe
            · intro p hp x j hpe
              rcases List.mem_append.mp hp with hm | hm
              · exact h4 p hm x j hpe
              · exact pa4 p hm x j hpe
          · rw [if_neg hi0]
            exact ⟨h1, h2, h3, h4, by simp⟩
        | cons e0 tl =>
          exact efs_close_run_inv i e0 tl ne br tr ps h1 h2 h3 h4 h5
      · rw [if_neg hair]
        refine ⟨h1, h2, h3, h4, ?_⟩
        intro s hs
        rcases List.mem_append.mp hs with hm | hm
        · exact h5 s hm
        · rcases List.mem_cons.mp hm with rfl | hm2
          · exact ⟨rfl, rfl⟩
          · cases hm2

/-- Helper for C7: the whole loop preserves the numbering invariant. -/
theorem efs_fold_inv (seq : SeqModel) (l : List Nat) :
    ∀ st : EfsState, EfsInv st → EfsInv (l.foldl (efs_step seq) st) := by
  induction l with
  | nil => intro st h; exact h
  | cons j l ih =>
    intro st h
    rw [List.foldl_cons]
    exact ih _ (efs_step_inv seq j st h)

/-- C7 (amended): in every part list emitted by `elements_from_sequence`,
the physical elements — Lens, CementedElement, Mirror and ThinElement —
draw their label numbers 1, 2, 3, ... from one shared running counter in
emission order, while every AirGap part carries the index of its gap and
every plain DummyInterface part carries the index of its surface (the
object and stop dummies carry the fixed labels Object and Stop); AirGap
and DummyInterface do not use running counters of their own. -/
theorem c7_label_numbering (seq : SeqModel) (t : PNode) (ps : List EPart)
    (h : efs_parts seq t = some ps) :
    physNums ps = List.range' 1 (physParts ps).length ∧
    (∀ p ∈ ps, ∀ a g, p = EPart.airgap a g → a = g) ∧
    (∀ p ∈ ps, ∀ a j, p = EPart.dummyPlain a j → a = j) := by
  simp only [efs_parts, elements_from_sequence] at h
  cases hinit : (if forestIsEmpty t.children then init_from_sequence seq t
      else some t) with
  | none => rw [hinit] at h; simp at h
  | some t0 =>
    rw [hinit] at h
    simp only [Option.map_some', Option.some.injEq] at h
    have hInvInit : EfsInv ⟨0, [], false, t0, ([] : List EPart)⟩ := by
      refine ⟨by simp [physParts], by simp [physNums, physParts], by simp, by simp,
        by simp⟩
    have hInv := efs_fold_inv seq (List.range seq.ifcs.length) _ hInvInit
    obtain ⟨g1, g2, g3, g4, g5⟩ := hInv
    rw [← h]
    exact ⟨g2, g3, g4⟩

/-- C7 (counterexample): for the two-lens sequence the run emits exactly
two AirGap parts, numbered 2 and 4 — the gap indices — which no running
counter (numbering consecutive values from any start) produces. -/
theorem c7_counterexample :
    (efs_parts seqB root0).map airgapParts =
      some [EPart.airgap 2 2, EPart.airgap 4 4] ∧
    ¬ ∃ a : Nat, 2 = a + 1 ∧ 4 = a + 2 := by
  constructor
  · decide
  · rintro ⟨a, ha1, ha2⟩
    omega

/-- C7 (witness): the shared-counter conclusion evaluated on the two-lens
sequence. -/
theorem c7_witness :
    physNums [EPart.lens 1 1 2 1, EPart.airgap 2 2, EPart.lens 2 3 4 3,
      EPart.airgap 4 4] =
    List.range' 1 (physParts [EPart.lens 1 1 2 1, EPart.airgap 2 2,
      EPart.lens 2 3 4 3, EPart.airgap 4 4]).length :=
  (c7_label_numbering seqB root0 _ (by decide)).1
